import Mathlib

/-!
# OPS1-ThreadsMutex: the array controller of `task2.c`

A shallow embedding of `src/task2.c`: the shared context, the reversal worker
(`thread_inversion`), the snapshot worker (`thread_printer`, `lock_all`,
`unlock_all`), the signal handler, the registry (`add_thread`) and the control
loop and drain loop of `main`.

Conventions of the embedding.

* `int` values that the program only compares, increments or decrements within
  `0..256` are `Nat` (indices, `n`, `p`, flags) or `Int` (`active_count`, array
  cells); no arithmetic of the program can overflow.
* A worker body is a function from the context to the new context and the list
  of events (`Ev`) it performed, in program order.
* `ctx->stop_flag` is written by `main` while a worker runs; the worker reads it
  once per loop iteration.  The values it reads are an input of the embedding:
  `flagAt k` is the value read by the check that follows `k` completed swaps.
* `rand()` results and `pthread_create` outcomes are inputs as well.
* The controller (`Sys`, `step`) is a transition system over signals, segments
  of `main` and worker returns.  It has no clock: the `usleep` of line 186 ends
  when its time is up or when a signal handler has run, and the segment of
  `main` that starts at line 186 stands for either.
* The workers are modelled a second time as interleaved threads (`Conc`,
  `exec`), one atomic action per mutex operation, with the owner of every mutex
  as explicit state; `solo_agrees` and `solo_printer_agrees` relate the two
  views of a worker that runs alone.
-/

namespace ThreadsMutex

/-- Console lines of `task2.c`. -/
inductive Msg where
  /-- Line 181: `PID: %d (Ready)`. -/
  | ready
  /-- Line 73: `[Worker] Inverting range [a, b]`. -/
  | inverting (a b : Nat)
  /-- Lines 118-120: `[Printer] Array: ...`. -/
  | printerArray (cells : List Int)
  /-- Lines 196 and 215: `All threads busy, aborting request`. -/
  | busy
  /-- Line 230: `Exiting... Waiting for threads.`. -/
  | exiting
  deriving DecidableEq, Repr

/-- Events a thread performs, in program order. -/
inductive Ev where
  /-- The call `pthread_mutex_lock(&ctx->mxParams)`. -/
  | lockParams
  /-- The call `pthread_mutex_unlock(&ctx->mxParams)`. -/
  | unlockParams
  /-- The call `pthread_mutex_lock(&ctx->mxArray[i])`. -/
  | lock (i : Nat)
  /-- The call `pthread_mutex_unlock(&ctx->mxArray[i])`. -/
  | unlock (i : Nat)
  /-- A `printf`. -/
  | say (m : Msg)
  deriving DecidableEq, Repr

/-- The struct `SharedContext` (lines 15-37); the mutexes themselves carry no
data and appear only through the events of `Ev`. -/
structure SharedContext where
  n : Nat
  p : Nat
  array : List Int
  active_count : Int
  stop_flag : Bool
  req_inversion : Nat
  req_print : Nat
  req_exit : Nat
  /-- The linked list `ThreadList`, head first. -/
  threads : List Nat
  deriving DecidableEq, Repr

/-- Lines 92-94: the three-assignment swap of `array[left]` and `array[right]`. -/
def swapCells (arr : List Int) (left right : Nat) : List Int :=
  let tmp := arr.getD left 0
  let arr1 := arr.set left (arr.getD right 0)
  arr1.set right tmp

/-- Lines 78-102: the `while (left < right)` loop of `thread_inversion`.
`k` counts the iterations completed so far, so `flagAt k` is the value of
`ctx->stop_flag` read at line 81 of the current iteration.  Returns the array
and the events of the loop. -/
def inversion_loop (flagAt : Nat → Bool) (k left right : Nat) (arr : List Int) :
    List Int × List Ev :=
  if left < right then
    if flagAt k then
      (arr, [Ev.lockParams, Ev.unlockParams])
    else
      let r := inversion_loop flagAt (k + 1) (left + 1) (right - 1) (swapCells arr left right)
      (r.1, [Ev.lockParams, Ev.unlockParams, Ev.lock left, Ev.lock right,
             Ev.unlock right, Ev.unlock left] ++ r.2)
  else
    (arr, [])
termination_by right - left
decreasing_by omega

/-- Lines 58-109: `thread_inversion`.  `r1`, `r2` are the two results of
`rand()`. -/
def thread_inversion (r1 r2 : Nat) (flagAt : Nat → Bool) (ctx : SharedContext) :
    SharedContext × List Ev :=
  let a0 := r1 % ctx.n
  let b0 := r2 % ctx.n
  let a := if a0 > b0 then b0 else a0
  let b := if a0 > b0 then a0 else b0
  if a = b then
    ({ ctx with active_count := ctx.active_count - 1 }, [Ev.lockParams, Ev.unlockParams])
  else
    let r := inversion_loop flagAt 0 a b ctx.array
    ({ ctx with array := r.1, active_count := ctx.active_count - 1 },
      [Ev.say (Msg.inverting a b)] ++ r.2 ++ [Ev.lockParams, Ev.unlockParams])

/-- The context `main` builds at lines 150-169 once `n` and `p` are accepted. -/
def initContext (n p : Nat) : SharedContext :=
  { n := n, p := p, array := (List.range n).map Int.ofNat, active_count := 0,
    stop_flag := false, req_inversion := 0, req_print := 0, req_exit := 0, threads := [] }

/-- Lines 48-50: `lock_all`, the ascending `for` loop from index `i` with
`count` iterations left. -/
def lock_all_from (i : Nat) : Nat → List Ev
  | 0 => []
  | count + 1 => Ev.lock i :: lock_all_from (i + 1) count

/-- Lines 48-50: `lock_all`. -/
def lock_all (ctx : SharedContext) : List Ev :=
  lock_all_from 0 ctx.n

/-- Lines 52-55: `unlock_all`, the descending `for` loop; the argument is
`i + 1` for the loop variable `i`. -/
def unlock_all_from : Nat → List Ev
  | 0 => []
  | i + 1 => Ev.unlock i :: unlock_all_from i

/-- Lines 52-55: `unlock_all`. -/
def unlock_all (ctx : SharedContext) : List Ev :=
  unlock_all_from ctx.n

/-- Lines 112-128: `thread_printer`. -/
def thread_printer (ctx : SharedContext) : SharedContext × List Ev :=
  ({ ctx with active_count := ctx.active_count - 1 },
    lock_all ctx ++ [Ev.say (Msg.printerArray ctx.array)] ++ unlock_all ctx
      ++ [Ev.lockParams, Ev.unlockParams])

/-- The signals a process can receive; `main` installs `handler` for the first
three only. -/
inductive Signal where
  | SIGUSR1
  | SIGUSR2
  | SIGINT
  | other (num : Nat)
  deriving DecidableEq, Repr

/-- Lines 131-136: `handler`, on the global pointer `g_ctx` (`none` is `NULL`). -/
def handler (sig : Signal) (g_ctx : Option SharedContext) : Option SharedContext :=
  match g_ctx with
  | none => none
  | some ctx =>
    let c1 := if sig = Signal.SIGUSR1 then { ctx with req_inversion := 1 } else ctx
    let c2 := if sig = Signal.SIGUSR2 then { c1 with req_print := 1 } else c1
    let c3 := if sig = Signal.SIGINT then { c2 with req_exit := 1 } else c2
    some c3

/-- Lines 139-144: `add_thread` pushes the handle at the head of the list. -/
def add_thread (ctx : SharedContext) (tid : Nat) : SharedContext :=
  { ctx with threads := tid :: ctx.threads }

/-- The two worker entry points `main` passes to `pthread_create`. -/
inductive Kind where
  | inversion
  | printer
  deriving DecidableEq, Repr

/-- Where the main thread stands between two of its segments. -/
inductive MainPc where
  /-- Line 186: in `usleep`, before the test of `req_exit`.  The call returns
  when its time is up or when a signal handler has run (the handlers are
  installed with `sa_flags = 0` and the result of `usleep` is ignored), so the
  next segment of `main` may follow a delivery at once. -/
  | polling
  /-- Line 191: before the test of `req_inversion`. -/
  | atInversion
  /-- Line 210: before the test of `req_print`. -/
  | atPrint
  /-- Lines 237-242: in the join loop. -/
  | draining
  /-- Line 246: `main` has returned. -/
  | terminated
  deriving DecidableEq, Repr

/-- The process: the shared context, the position of `main`, and bookkeeping
that the C program does not store (marked ghost). -/
structure Sys where
  ctx : SharedContext
  pc : MainPc
  /-- Ghost: workers created and not yet returned, oldest first. -/
  live : List (Nat × Kind)
  /-- Ghost: the handle the next successful `pthread_create` returns. -/
  nextTid : Nat
  /-- Ghost: handles returned by successful `pthread_create` calls, oldest first. -/
  spawned : List Nat
  /-- Ghost: number of `pthread_create` calls that failed. -/
  failedCreates : Nat
  /-- The local `curr` of the join loop (the part of the list still to visit). -/
  curr : List Nat
  /-- Ghost: handles passed to `pthread_join`, in order. -/
  joined : List Nat
  /-- Events of the main thread, in order. -/
  log : List Ev
  deriving DecidableEq, Repr

/-- The state `main` is in at line 183, after the initialisation of lines
150-181. -/
def bootSys (n p : Nat) : Sys :=
  { ctx := initContext n p, pc := MainPc.polling, live := [], nextTid := 0,
    spawned := [], failedCreates := 0, curr := [], joined := [],
    log := [Ev.say Msg.ready] }

/-- Lines 148-181: argument checks and initialisation; `none` is the `ERR`
exit.  `n` and `p` are the results of `atoi`. -/
def startup (n p : Int) : Option Sys :=
  if n < 8 ∨ n > 256 then none
  else if p < 1 ∨ p > 16 then none
  else some (bootSys n.toNat p.toNat)

/-- Lines 194-206 and 213-225: the admission test under `mxParams`, then
`pthread_create` and `add_thread`.  `created` says whether `pthread_create`
returned 0. -/
def admission (kind : Kind) (created : Bool) (s : Sys) : Sys :=
  if s.ctx.active_count ≥ (s.ctx.p : Int) then
    { s with log := s.log ++ [Ev.lockParams, Ev.say Msg.busy, Ev.unlockParams] }
  else
    let ctx1 := { s.ctx with active_count := s.ctx.active_count + 1 }
    if created then
      { s with
        ctx := add_thread ctx1 s.nextTid
        live := s.live ++ [(s.nextTid, kind)]
        nextTid := s.nextTid + 1
        spawned := s.spawned ++ [s.nextTid]
        log := s.log ++ [Ev.lockParams, Ev.unlockParams] }
    else
      { s with
        ctx := ctx1
        failedCreates := s.failedCreates + 1
        log := s.log ++ [Ev.lockParams, Ev.unlockParams] }

/-- Lines 191-207: the handling of a reversal request. -/
def handle_inversion (created : Bool) (s : Sys) : Sys :=
  if s.ctx.req_inversion ≠ 0 then
    admission Kind.inversion created { s with ctx := { s.ctx with req_inversion := 0 } }
  else s

/-- Lines 210-226: the handling of a print request. -/
def handle_print (created : Bool) (s : Sys) : Sys :=
  if s.ctx.req_print ≠ 0 then
    admission Kind.printer created { s with ctx := { s.ctx with req_print := 0 } }
  else s

/-- Lines 229-236: after `break`, `main` prints, sets `stop_flag` under
`mxParams` and points `curr` at the head of the list. -/
def begin_drain (s : Sys) : Sys :=
  { s with
    ctx := { s.ctx with stop_flag := true }
    pc := MainPc.draining
    curr := s.ctx.threads
    log := s.log ++ [Ev.say Msg.exiting, Ev.lockParams, Ev.unlockParams] }

/-- Lines 237-246: one turn of the join loop.  `pthread_join` returns only once
the worker has returned, so the turn is taken only when the handle is no longer
live; with `curr` empty `main` returns. -/
def drain_step (s : Sys) : Sys :=
  match s.curr with
  | [] => { s with pc := MainPc.terminated }
  | tid :: rest =>
    if s.live.any (fun w => w.1 == tid) then s
    else { s with curr := rest, joined := s.joined ++ [tid] }

/-- The next segment of `main`: lines 186-188, 191-207, 210-226 or one turn of
the join loop. -/
def main_step (created : Bool) (s : Sys) : Sys :=
  match s.pc with
  | MainPc.polling =>
    if s.ctx.req_exit ≠ 0 then begin_drain s else { s with pc := MainPc.atInversion }
  | MainPc.atInversion => { handle_inversion created s with pc := MainPc.atPrint }
  | MainPc.atPrint => { handle_print created s with pc := MainPc.polling }
  | MainPc.draining => drain_step s
  | MainPc.terminated => s

/-- What happens in the process, one event at a time. -/
inductive Event where
  /-- A signal is delivered and `handler` runs. -/
  | signal (sig : Signal)
  /-- The main thread runs its next segment. -/
  | main (created : Bool)
  /-- The live worker `tid` runs its body and returns; `r1`, `r2`, `flagAt` are
  what `rand()` and the reads of `stop_flag` gave it (unused by the printer). -/
  | workerExit (tid r1 r2 : Nat) (flagAt : Nat → Bool)

/-- The body of a worker of the given kind. -/
def worker_body (kind : Kind) (r1 r2 : Nat) (flagAt : Nat → Bool) (ctx : SharedContext) :
    SharedContext × List Ev :=
  match kind with
  | Kind.inversion => thread_inversion r1 r2 flagAt ctx
  | Kind.printer => thread_printer ctx

/-- One event of the process.  An exit event for a handle that is not live is
ignored, as is a signal once `main` has returned.  The body of a worker is
applied in one piece when the worker returns: `active_count` is read and
written under `mxParams` only, so for it the order of the events is all that
matters; how the workers interleave on the array and its mutexes is the subject
of `exec` below. -/
def step (s : Sys) : Event → Sys
  | Event.signal sig =>
    if s.pc = MainPc.terminated then s
    else
      match handler sig (some s.ctx) with
      | some c => { s with ctx := c }
      | none => s
  | Event.main created => main_step created s
  | Event.workerExit tid r1 r2 flagAt =>
    match s.live.find? (fun w => w.1 == tid) with
    | none => s
    | some w =>
      { s with
        ctx := (worker_body w.2 r1 r2 flagAt s.ctx).1
        live := s.live.erase w }

/-- The state after a sequence of events. -/
def run (s : Sys) (evs : List Event) : Sys :=
  evs.foldl step s

/-- The events of one completed iteration of the reversal loop (lines 80-97). -/
def swapBlock (left right : Nat) : List Ev :=
  [Ev.lockParams, Ev.unlockParams, Ev.lock left, Ev.lock right,
   Ev.unlock right, Ev.unlock left]

/-- The events of `m` completed iterations of the reversal loop that starts at
`left`, `right`. -/
def stepsTrace (left right : Nat) : Nat → List Ev
  | 0 => []
  | m + 1 => swapBlock left right ++ stepsTrace (left + 1) (right - 1) m

/-- The element locks a thread holds after the events `tr`, having held
`held` before, most recent first. -/
def heldAfter (held : List Nat) : List Ev → List Nat
  | [] => held
  | Ev.lock i :: tr => heldAfter (i :: held) tr
  | Ev.unlock i :: tr => heldAfter (held.erase i) tr
  | _ :: tr => heldAfter held tr

/-- The lock-ordering discipline on a thread's events: an element lock is
acquired only when its index is above that of every element lock held, and only
a held lock is released. -/
def lockOrdered (held : List Nat) : List Ev → Prop
  | [] => True
  | Ev.lock i :: tr => (∀ j ∈ held, j < i) ∧ lockOrdered (i :: held) tr
  | Ev.unlock i :: tr => i ∈ held ∧ lockOrdered (held.erase i) tr
  | _ :: tr => lockOrdered held tr

/-- The events with which the reversal worker leaves its loop after `m`
iterations from `left`, `right`: the check of line 81 that found the flag set,
or nothing when `left < right` failed. -/
def loopExit (left right m : Nat) : List Ev :=
  if left + 2 * m < right then [Ev.lockParams, Ev.unlockParams] else []

/-- The request flag that the control loop tests for a worker kind (lines 191
and 210). -/
def requestFlag (kind : Kind) (ctx : SharedContext) : Nat :=
  match kind with
  | Kind.inversion => ctx.req_inversion
  | Kind.printer => ctx.req_print

/-- The handling of a request of the given kind: lines 191-207 or 210-226. -/
def handle_request (kind : Kind) (created : Bool) (s : Sys) : Sys :=
  match kind with
  | Kind.inversion => handle_inversion created s
  | Kind.printer => handle_print created s

/-- Program points of a worker thread, named after the line it executes next. -/
inductive WPc where
  /-- Line 61 of `thread_inversion`, with the results `rand()` is about to give. -/
  | invStart (r1 r2 : Nat)
  /-- Line 78: the test `left < right`. -/
  | invHead (left right : Nat)
  /-- Line 81: the test of `stop_flag`, `mxParams` held. -/
  | invCheck (left right : Nat)
  /-- Line 88: before locking `mxArray[left]`. -/
  | invLockLeft (left right : Nat)
  /-- Line 89: before locking `mxArray[right]`. -/
  | invLockRight (left right : Nat)
  /-- Lines 92-94: the swap. -/
  | invSwap (left right : Nat)
  /-- Line 96: before unlocking `mxArray[right]`. -/
  | invUnlockRight (left right : Nat)
  /-- Line 97: before unlocking `mxArray[left]`. -/
  | invUnlockLeft (left right : Nat)
  /-- Line 49 of `lock_all` called from `thread_printer`, loop variable `i`. -/
  | prtLock (i : Nat)
  /-- Lines 118-120: the print of the array. -/
  | prtPrint
  /-- Line 54 of `unlock_all`, loop variable `i - 1` (`0` once the loop is over). -/
  | prtUnlock (i : Nat)
  /-- Lines 67, 105, 124: before locking `mxParams` for the decrement. -/
  | release
  /-- Lines 68-69, 106-107, 125-126: the decrement, `mxParams` held. -/
  | releaseLocked
  /-- The thread function has returned. -/
  | done
  deriving DecidableEq, Repr

/-- The atomic actions of a worker. -/
inductive Act where
  /-- The call `pthread_mutex_lock(&ctx->mxArray[i])`; waits while the mutex is owned. -/
  | acquire (i : Nat)
  /-- The call `pthread_mutex_unlock(&ctx->mxArray[i])`. -/
  | unlockElem (i : Nat)
  /-- The call `pthread_mutex_lock(&ctx->mxParams)`; waits while the mutex is owned. -/
  | acquireParams
  /-- The call `pthread_mutex_unlock(&ctx->mxParams)`. -/
  | unlockParams
  /-- The decrement `ctx->active_count--` and `pthread_mutex_unlock(&ctx->mxParams)`. -/
  | decrementUnlock
  /-- Lines 92-94. -/
  | swap (left right : Nat)
  /-- The `printf` of line 73. -/
  | say (m : Msg)
  /-- The `printf`s of lines 118-120. -/
  | snapshot
  /-- Local computation only. -/
  | tau
  deriving DecidableEq, Repr

/-- The next action of a thread at a program point and the point it leads to;
`stop` is the value of `stop_flag` (read only at line 81, under `mxParams`). -/
def next (n : Nat) (stop : Bool) : WPc → Option (Act × WPc)
  | WPc.invStart r1 r2 =>
    let a0 := r1 % n
    let b0 := r2 % n
    let a := if a0 > b0 then b0 else a0
    let b := if a0 > b0 then a0 else b0
    if a = b then some (Act.tau, WPc.release)
    else some (Act.say (Msg.inverting a b), WPc.invHead a b)
  | WPc.invHead left right =>
    if left < right then some (Act.acquireParams, WPc.invCheck left right)
    else some (Act.tau, WPc.release)
  | WPc.invCheck left right =>
    if stop then some (Act.unlockParams, WPc.release)
    else some (Act.unlockParams, WPc.invLockLeft left right)
  | WPc.invLockLeft left right => some (Act.acquire left, WPc.invLockRight left right)
  | WPc.invLockRight left right => some (Act.acquire right, WPc.invSwap left right)
  | WPc.invSwap left right => some (Act.swap left right, WPc.invUnlockRight left right)
  | WPc.invUnlockRight left right => some (Act.unlockElem right, WPc.invUnlockLeft left right)
  | WPc.invUnlockLeft left right => some (Act.unlockElem left, WPc.invHead (left + 1) (right - 1))
  | WPc.prtLock i =>
    if i < n then some (Act.acquire i, WPc.prtLock (i + 1))
    else some (Act.tau, WPc.prtPrint)
  | WPc.prtPrint => some (Act.snapshot, WPc.prtUnlock n)
  | WPc.prtUnlock 0 => some (Act.tau, WPc.release)
  | WPc.prtUnlock (i + 1) => some (Act.unlockElem i, WPc.prtUnlock i)
  | WPc.release => some (Act.acquireParams, WPc.releaseLocked)
  | WPc.releaseLocked => some (Act.decrementUnlock, WPc.done)
  | WPc.done => none

/-- The shared context, the owner of every mutex (`none` when free), the
program point of every worker (a worker's id is its position) and the console
output. -/
structure Conc where
  ctx : SharedContext
  mxArray : List (Option Nat)
  mxParams : Option Nat
  pcs : List WPc
  out : List Msg
  deriving DecidableEq, Repr

/-- Worker `t` takes its next action; `none` when it has returned, does not
exist, or waits for a mutex that is owned. -/
def exec (c : Conc) (t : Nat) : Option Conc :=
  match c.pcs[t]? with
  | none => none
  | some pc =>
    match next c.ctx.n c.ctx.stop_flag pc with
    | none => none
    | some (Act.acquire i, pc') =>
      if c.mxArray[i]? = some none then
        some { c with mxArray := c.mxArray.set i (some t), pcs := c.pcs.set t pc' }
      else none
    | some (Act.unlockElem i, pc') =>
      some { c with mxArray := c.mxArray.set i none, pcs := c.pcs.set t pc' }
    | some (Act.acquireParams, pc') =>
      if c.mxParams = none then
        some { c with mxParams := some t, pcs := c.pcs.set t pc' }
      else none
    | some (Act.unlockParams, pc') =>
      some { c with mxParams := none, pcs := c.pcs.set t pc' }
    | some (Act.decrementUnlock, pc') =>
      some { c with
        ctx := { c.ctx with active_count := c.ctx.active_count - 1 }
        mxParams := none
        pcs := c.pcs.set t pc' }
    | some (Act.swap left right, pc') =>
      some { c with
        ctx := { c.ctx with array := swapCells c.ctx.array left right }
        pcs := c.pcs.set t pc' }
    | some (Act.say m, pc') =>
      some { c with pcs := c.pcs.set t pc', out := c.out ++ [m] }
    | some (Act.snapshot, pc') =>
      some { c with pcs := c.pcs.set t pc', out := c.out ++ [Msg.printerArray c.ctx.array] }
    | some (Act.tau, pc') =>
      some { c with pcs := c.pcs.set t pc' }

/-- What may happen next in the process. -/
inductive Sched where
  /-- Worker `t` runs (nothing happens if it cannot). -/
  | worker (t : Nat)
  /-- Lines 194-205: `main` admits a reversal request under `mxParams` and
  `pthread_create` starts `thread_inversion`, whose `rand()` will give `r1`, `r2`. -/
  | spawnInversion (r1 r2 : Nat)
  /-- Lines 213-224: `main` admits a print request under `mxParams` and
  `pthread_create` starts `thread_printer`. -/
  | spawnPrinter
  /-- Lines 232-234: `main` sets `stop_flag` under `mxParams`. -/
  | setStop
  deriving DecidableEq, Repr

/-- Lines 194-205 and 213-224 with a successful `pthread_create`: when
`mxParams` is free and `active_count < p`, the count is incremented and a new
thread starts at `pc`. -/
def spawn (c : Conc) (pc : WPc) : Conc :=
  if c.mxParams = none ∧ c.ctx.active_count < (c.ctx.p : Int) then
    { c with
      ctx := { c.ctx with active_count := c.ctx.active_count + 1 }
      pcs := c.pcs ++ [pc] }
  else c

/-- One scheduling decision. -/
def cstep (c : Conc) : Sched → Conc
  | Sched.worker t => (exec c t).getD c
  | Sched.spawnInversion r1 r2 => spawn c (WPc.invStart r1 r2)
  | Sched.spawnPrinter => spawn c (WPc.prtLock 0)
  | Sched.setStop =>
    if c.mxParams = none then { c with ctx := { c.ctx with stop_flag := true } } else c

/-- The state after a schedule. -/
def crun (c : Conc) (sched : List Sched) : Conc :=
  sched.foldl cstep c

/-- The process at line 183 for the interleaved execution: the context of
`main` with the array `arr`, every mutex free, no worker yet. -/
def initConc (n p : Nat) (arr : List Int) : Conc :=
  { ctx := { initContext n p with array := arr }
    mxArray := List.replicate n none
    mxParams := none
    pcs := []
    out := [] }

/-- The element mutexes a thread owns at a program point. -/
def holdsElem (n : Nat) : WPc → Nat → Prop
  | WPc.invLockRight left _, i => i = left
  | WPc.invSwap left right, i => i = left ∨ i = right
  | WPc.invUnlockRight left right, i => i = left ∨ i = right
  | WPc.invUnlockLeft left _, i => i = left
  | WPc.prtLock k, i => i < k
  | WPc.prtPrint, i => i < n
  | WPc.prtUnlock k, i => i < k
  | _, _ => False

/-- The program points at which a thread owns `mxParams`. -/
def holdsParams : WPc → Prop
  | WPc.invCheck _ _ => True
  | WPc.releaseLocked => True
  | _ => False

/-- The ranges of the local variables at each program point. -/
def wellFormed (n : Nat) : WPc → Prop
  | WPc.invHead _ right => right < n
  | WPc.invCheck left right => left < right ∧ right < n
  | WPc.invLockLeft left right => left < right ∧ right < n
  | WPc.invLockRight left right => left < right ∧ right < n
  | WPc.invSwap left right => left < right ∧ right < n
  | WPc.invUnlockRight left right => left < right ∧ right < n
  | WPc.invUnlockLeft left right => left < right ∧ right < n
  | WPc.prtLock k => k ≤ n
  | WPc.prtUnlock k => k ≤ n
  | _ => True

/-- An upper bound on the number of actions a thread still takes. -/
def weight (n : Nat) : WPc → Nat
  | WPc.invStart _ _ => 7 * n + 4
  | WPc.invHead left right => 7 * (right - left) + 3
  | WPc.invCheck left right => 7 * (right - left) + 2
  | WPc.invLockLeft left right => 7 * (right - left) + 1
  | WPc.invLockRight left right => 7 * (right - left)
  | WPc.invSwap left right => 7 * (right - left) - 1
  | WPc.invUnlockRight left right => 7 * (right - left) - 2
  | WPc.invUnlockLeft left right => 7 * (right - left) - 3
  | WPc.prtLock k => (n - k) + n + 5
  | WPc.prtPrint => n + 4
  | WPc.prtUnlock k => k + 3
  | WPc.release => 2
  | WPc.releaseLocked => 1
  | WPc.done => 0

/-- An upper bound on the number of actions all threads together still take. -/
def stepsLeft (c : Conc) : Nat :=
  (c.pcs.map (weight c.ctx.n)).sum

/-- Worker `t` is at a `pthread_mutex_lock` of the element mutex `i`, which
is owned. -/
def waitsFor (c : Conc) (t i : Nat) : Prop :=
  ∃ pc pc', c.pcs[t]? = some pc ∧
    next c.ctx.n c.ctx.stop_flag pc = some (Act.acquire i, pc') ∧
    c.mxArray[i]? ≠ some none

/-- Every worker has returned. -/
def allDone (c : Conc) : Prop :=
  ∀ pc ∈ c.pcs, pc = WPc.done

/-- Two reversal workers with the overlapping ranges `[2,5]` and `[3,6]` and a
snapshot worker are started.  Worker 1 completes its first swap and, owning
element 4, is about to lock element 5; worker 0 then locks elements 2 and 5;
worker 1 and the snapshot worker (owning 0 and 1, about to lock 2) then try to
proceed and cannot. -/
def contestedSchedule : List Sched :=
  [Sched.spawnInversion 2 5, Sched.spawnInversion 3 6, Sched.spawnPrinter]
    ++ List.replicate 11 (Sched.worker 1) ++ List.replicate 5 (Sched.worker 0)
    ++ [Sched.worker 1] ++ List.replicate 3 (Sched.worker 2)

/-- A single worker at `pc`, every mutex free. -/
def solo (ctx : SharedContext) (pc : WPc) (out : List Msg) : Conc :=
  { ctx := ctx, mxArray := List.replicate ctx.n none, mxParams := none, pcs := [pc], out := out }

/-- The owners of the element mutexes when worker 0 owns exactly those below
`i`. -/
def lockedUpTo (n i : Nat) : List (Option Nat) :=
  (List.range n).map (fun j => if j < i then some 0 else none)

/-- The schedule in which worker 0 acts `k` times in a row. -/
def soloSchedule (k : Nat) : List Sched :=
  List.replicate k (Sched.worker 0)

instance (c : Conc) : Decidable (allDone c) := by
  unfold allDone
  infer_instance

/-- What holds in every state the process can reach. -/
structure Inv (s : Sys) : Prop where
  count : s.ctx.active_count = (s.live.length : Int) + (s.failedCreates : Int)
  bound : s.ctx.active_count ≤ (s.ctx.p : Int)
  registry : s.ctx.threads = s.spawned.reverse
  handles : s.spawned = List.range s.nextTid
  liveSub : (s.live.map Prod.fst).Sublist s.spawned
  running : s.pc ≠ MainPc.draining → s.pc ≠ MainPc.terminated →
    s.ctx.stop_flag = false ∧ s.joined = []
  drain : s.pc = MainPc.draining →
    s.ctx.stop_flag = true ∧ s.joined ++ s.curr = s.ctx.threads ∧
      ∀ w ∈ s.live, w.1 ∈ s.curr
  done : s.pc = MainPc.terminated →
    s.ctx.stop_flag = true ∧ s.joined = s.ctx.threads ∧ s.live = []

/-- What holds in every state of the interleaved execution. -/
structure CInv (c : Conc) : Prop where
  pos : 0 < c.ctx.n
  len : c.mxArray.length = c.ctx.n
  wf : ∀ (t : Nat) (pc : WPc), c.pcs[t]? = some pc → wellFormed c.ctx.n pc
  own : ∀ i t, c.mxArray[i]? = some (some t) ↔
    ∃ pc, c.pcs[t]? = some pc ∧ holdsElem c.ctx.n pc i
  pown : ∀ t, c.mxParams = some t ↔ ∃ pc, c.pcs[t]? = some pc ∧ holdsParams pc

/-! ## Lemmas on the reversal loop -/

theorem swapCells_length (arr : List Int) (left right : Nat) :
    (swapCells arr left right).length = arr.length := by
  simp [swapCells]

theorem swapCells_getElem? (arr : List Int) (left right i : Nat)
    (hlr : left < right) (hr : right < arr.length) :
    (swapCells arr left right)[i]? =
      if i = left then arr[right]? else if i = right then arr[left]? else arr[i]? := by
  have hl : left < arr.length := by omega
  simp only [swapCells, List.getD_eq_getElem?_getD, List.getElem?_set, List.length_set]
  by_cases h1 : i = right
  · subst h1
    have : i ≠ left := by omega
    simp [this, hr, List.getElem?_eq_getElem hl]
  · by_cases h2 : i = left
    · subst h2
      simp [hl, List.getElem?_eq_getElem hr, Ne.symm h1]
    · simp [h1, h2, Ne.symm h1, Ne.symm h2]

/-- The array after `m` iterations of the loop: cells `left..left+m-1` and
`right-m+1..right` are mirrored, every other cell is untouched. -/
theorem inversion_loop_cells (flagAt : Nat → Bool) (m : Nat) :
    ∀ (k left right : Nat) (arr : List Int), right < arr.length →
      2 * m ≤ right + 1 - left →
      (∀ j, j < m → flagAt (k + j) = false) →
      (flagAt (k + m) = true ∨ right < left + 2 * m + 1) →
      ((inversion_loop flagAt k left right arr).1).length = arr.length ∧
      ∀ i, ((inversion_loop flagAt k left right arr).1)[i]? =
        if (left ≤ i ∧ i < left + m) ∨ (right < i + m ∧ i ≤ right)
        then arr[left + right - i]? else arr[i]? := by
  induction m with
  | zero =>
    intro k left right arr _ _ _ hstop
    have hout : (inversion_loop flagAt k left right arr).1 = arr := by
      rw [inversion_loop]
      by_cases hlt : left < right
      · have hf : flagAt k = true := by
          rcases hstop with h | h
          · simpa using h
          · omega
        simp [hlt, hf]
      · simp [hlt]
    rw [hout]
    refine ⟨rfl, fun i => ?_⟩
    have : ¬ ((left ≤ i ∧ i < left + 0) ∨ (right < i + 0 ∧ i ≤ right)) := by omega
    rw [if_neg this]
  | succ m ih =>
    intro k left right arr hr hm hfalse hstop
    have hlt : left < right := by omega
    have hf : flagAt k = false := by simpa using hfalse 0 (by omega)
    have hrec := ih (k + 1) (left + 1) (right - 1) (swapCells arr left right)
      (by rw [swapCells_length]; omega) (by omega)
      (fun j hj => by
        have := hfalse (j + 1) (by omega)
        rwa [show k + 1 + j = k + (j + 1) by omega])
      (by
        rcases hstop with h | h
        · left
          rwa [show k + 1 + m = k + (m + 1) by omega]
        · right
          omega)
    have hout : (inversion_loop flagAt k left right arr).1 =
        (inversion_loop flagAt (k + 1) (left + 1) (right - 1) (swapCells arr left right)).1 := by
      rw [inversion_loop]
      simp [hlt, hf]
    rw [hout]
    refine ⟨by rw [hrec.1, swapCells_length], fun i => ?_⟩
    rw [hrec.2 i, swapCells_getElem? arr left right _ hlt hr,
      swapCells_getElem? arr left right _ hlt hr]
    by_cases hi1 : i = left
    · subst hi1
      have c1 : ¬ ((i + 1 ≤ i ∧ i < i + 1 + m) ∨ (right - 1 < i + m ∧ i ≤ right - 1)) := by omega
      have c2 : (i ≤ i ∧ i < i + (m + 1)) ∨ (right < i + (m + 1) ∧ i ≤ right) := by omega
      rw [if_neg c1, if_pos c2, if_pos rfl]
      congr 1
      omega
    · by_cases hi2 : i = right
      · subst hi2
        have c1 : ¬ ((left + 1 ≤ i ∧ i < left + 1 + m) ∨ (i - 1 < i + m ∧ i ≤ i - 1)) := by omega
        have c2 : (left ≤ i ∧ i < left + (m + 1)) ∨ (i < i + (m + 1) ∧ i ≤ i) := by omega
        rw [if_neg c1, if_pos c2, if_neg hi1, if_pos rfl]
        congr 1
        omega
      · rw [if_neg hi1, if_neg hi2]
        by_cases c : (left + 1 ≤ i ∧ i < left + 1 + m) ∨ (right - 1 < i + m ∧ i ≤ right - 1)
        · have c2 : (left ≤ i ∧ i < left + (m + 1)) ∨ (right < i + (m + 1) ∧ i ≤ right) := by
            omega
          have e : left + 1 + (right - 1) - i = left + right - i := by omega
          have n1 : left + right - i ≠ left := by omega
          have n2 : left + right - i ≠ right := by omega
          rw [if_pos c, if_pos c2, e, if_neg n1, if_neg n2]
        · have c2 : ¬ ((left ≤ i ∧ i < left + (m + 1)) ∨ (right < i + (m + 1) ∧ i ≤ right)) := by
            omega
          rw [if_neg c, if_neg c2]

/-- With both random indices already in range and `a < b`, `thread_inversion`
runs the loop on `[a, b]`. -/
theorem thread_inversion_array (a b : Nat) (flagAt : Nat → Bool) (ctx : SharedContext)
    (hab : a < b) (hb : b < ctx.n) :
    (thread_inversion a b flagAt ctx).1.array = (inversion_loop flagAt 0 a b ctx.array).1 := by
  have ha : a % ctx.n = a := Nat.mod_eq_of_lt (by omega)
  have hb2 : b % ctx.n = b := Nat.mod_eq_of_lt hb
  have h1 : ¬ a > b := by omega
  have h2 : a ≠ b := by omega
  simp [thread_inversion, ha, hb2, h1, h2]

/-- The events of the loop when it runs `m` iterations. -/
theorem inversion_loop_trace (flagAt : Nat → Bool) (m : Nat) :
    ∀ (k left right : Nat) (arr : List Int),
      2 * m ≤ right + 1 - left →
      (∀ j, j < m → flagAt (k + j) = false) →
      (flagAt (k + m) = true ∨ right < left + 2 * m + 1) →
      (inversion_loop flagAt k left right arr).2 =
        stepsTrace left right m ++ loopExit left right m := by
  induction m with
  | zero =>
    intro k left right arr _ _ hstop
    rw [inversion_loop]
    by_cases hlt : left < right
    · have hf : flagAt k = true := by
        rcases hstop with h | h
        · simpa using h
        · omega
      simp [hlt, hf, stepsTrace, loopExit]
    · simp [hlt, stepsTrace, loopExit]
  | succ m ih =>
    intro k left right arr hm hfalse hstop
    have hlt : left < right := by omega
    have hf : flagAt k = false := by simpa using hfalse 0 (by omega)
    have hrec := ih (k + 1) (left + 1) (right - 1) (swapCells arr left right) (by omega)
      (fun j hj => by
        have := hfalse (j + 1) (by omega)
        rwa [show k + 1 + j = k + (j + 1) by omega])
      (by
        rcases hstop with h | h
        · left
          rwa [show k + 1 + m = k + (m + 1) by omega]
        · right
          omega)
    rw [inversion_loop]
    simp only [hlt, hf, if_true, Bool.false_eq_true, if_false]
    rw [hrec]
    have hexit : loopExit (left + 1) (right - 1) m = loopExit left right (m + 1) := by
      unfold loopExit
      by_cases c : left + 1 + 2 * m < right - 1
      · rw [if_pos c, if_pos (by omega)]
      · rw [if_neg c, if_neg (by omega)]
    rw [hexit]
    simp [stepsTrace, swapBlock]

/-- The number of iterations the loop runs: the first check that finds the flag
set, capped by `c`. -/
theorem first_stop (flagAt : Nat → Bool) (c : Nat) :
    ∀ k, ∃ m, m ≤ c ∧ (∀ j, j < m → flagAt (k + j) = false) ∧
      (flagAt (k + m) = true ∨ m = c) := by
  induction c with
  | zero => intro k; exact ⟨0, le_refl 0, fun j hj => absurd hj (by omega), Or.inr rfl⟩
  | succ c ih =>
    intro k
    by_cases hf : flagAt k = true
    · exact ⟨0, by omega, fun j hj => absurd hj (by omega), Or.inl hf⟩
    · obtain ⟨m, hm, hfalse, hstop⟩ := ih (k + 1)
      refine ⟨m + 1, by omega, fun j hj => ?_, ?_⟩
      · cases j with
        | zero => simpa using hf
        | succ j =>
          have := hfalse j (by omega)
          rwa [show k + 1 + j = k + (j + 1) by omega] at this
      · rcases hstop with h | h
        · left
          rwa [show k + 1 + m = k + (m + 1) by omega] at h
        · right
          omega

/-- The loop run with the flag never set reverses `[a, b]`. -/
theorem inversion_loop_full (a b : Nat) (arr : List Int) (hab : a < b) (hb : b < arr.length) :
    ((inversion_loop (fun _ => false) 0 a b arr).1).length = arr.length ∧
    ∀ i, ((inversion_loop (fun _ => false) 0 a b arr).1)[i]? =
      if a ≤ i ∧ i ≤ b then arr[a + b - i]? else arr[i]? := by
  have hloop := inversion_loop_cells (fun _ => false) ((b + 1 - a) / 2) 0 a b arr
    hb (by omega) (fun _ _ => rfl) (by right; omega)
  refine ⟨hloop.1, fun i => ?_⟩
  rw [hloop.2 i]
  by_cases c : (a ≤ i ∧ i < a + (b + 1 - a) / 2) ∨ (b < i + (b + 1 - a) / 2 ∧ i ≤ b)
  · rw [if_pos c, if_pos (by omega)]
  · rw [if_neg c]
    by_cases c2 : a ≤ i ∧ i ≤ b
    · rw [if_pos c2]
      congr 1
      omega
    · rw [if_neg c2]

theorem worker_body_eq (kind : Kind) (r1 r2 : Nat) (flagAt : Nat → Bool) (ctx : SharedContext) :
    ∃ arr, (worker_body kind r1 r2 flagAt ctx).1 =
      { ctx with array := arr, active_count := ctx.active_count - 1 } := by
  cases kind with
  | inversion =>
    simp only [worker_body, thread_inversion]
    split_ifs <;> exact ⟨_, rfl⟩
  | printer => exact ⟨ctx.array, rfl⟩

theorem thread_inversion_same (a : Nat) (flagAt : Nat → Bool) (ctx : SharedContext) :
    (thread_inversion a a flagAt ctx).1.array = ctx.array := by
  simp [thread_inversion]

theorem thread_inversion_static (r1 r2 : Nat) (flagAt : Nat → Bool) (ctx : SharedContext) :
    (thread_inversion r1 r2 flagAt ctx).1.n = ctx.n := by
  obtain ⟨arr, h⟩ := worker_body_eq Kind.inversion r1 r2 flagAt ctx
  simp only [worker_body] at h
  rw [h]

theorem heldAfter_append (xs ys : List Ev) :
    ∀ held, heldAfter held (xs ++ ys) = heldAfter (heldAfter held xs) ys := by
  induction xs with
  | nil => intro held; rfl
  | cons e es ih =>
    intro held
    cases e <;> simp [heldAfter, ih]

theorem lockOrdered_append (xs ys : List Ev) :
    ∀ held, lockOrdered held (xs ++ ys) ↔
      (lockOrdered held xs ∧ lockOrdered (heldAfter held xs) ys) := by
  induction xs with
  | nil => intro held; simp [lockOrdered, heldAfter]
  | cons e es ih =>
    intro held
    cases e <;> simp [lockOrdered, heldAfter, ih, and_assoc]

theorem swapBlock_ordered (left right : Nat) (h : left < right) :
    lockOrdered [] (swapBlock left right) ∧ heldAfter [] (swapBlock left right) = [] := by
  have hne : left ≠ right := by omega
  simp [swapBlock, lockOrdered, heldAfter, h]

theorem stepsTrace_ordered (m : Nat) :
    ∀ left right, 2 * m ≤ right + 1 - left →
      lockOrdered [] (stepsTrace left right m) ∧ heldAfter [] (stepsTrace left right m) = [] := by
  induction m with
  | zero => intro left right _; simp [stepsTrace, lockOrdered, heldAfter]
  | succ m ih =>
    intro left right hm
    have hb := swapBlock_ordered left right (by omega)
    have hr := ih (left + 1) (right - 1) (by omega)
    simp only [stepsTrace]
    rw [lockOrdered_append, heldAfter_append, hb.2]
    exact ⟨⟨hb.1, hr.1⟩, hr.2⟩

theorem loopExit_ordered (left right m : Nat) :
    lockOrdered [] (loopExit left right m) ∧ heldAfter [] (loopExit left right m) = [] := by
  unfold loopExit
  split <;> simp [lockOrdered, heldAfter]

theorem lock_all_from_eq (count : Nat) :
    ∀ i, lock_all_from i count = (List.range' i count).map Ev.lock := by
  induction count with
  | zero => intro i; rfl
  | succ c ih => intro i; simp [lock_all_from, ih, List.range']

theorem unlock_all_from_eq (n : Nat) :
    unlock_all_from n = (List.range n).reverse.map Ev.unlock := by
  induction n with
  | zero => rfl
  | succ n ih => simp [unlock_all_from, ih, List.range_succ]

theorem lock_all_from_ordered (count : Nat) :
    ∀ i, lockOrdered (List.range i).reverse (lock_all_from i count) ∧
      heldAfter (List.range i).reverse (lock_all_from i count)
        = (List.range (i + count)).reverse := by
  induction count with
  | zero => intro i; simp [lock_all_from, lockOrdered, heldAfter]
  | succ c ih =>
    intro i
    have h := ih (i + 1)
    rw [List.range_succ, List.reverse_append, List.reverse_singleton, List.singleton_append] at h
    simp only [lock_all_from, lockOrdered, heldAfter]
    refine ⟨⟨fun j hj => by simpa using hj, h.1⟩, ?_⟩
    rw [h.2]
    congr 2
    omega

theorem unlock_all_from_ordered (n : Nat) :
    lockOrdered (List.range n).reverse (unlock_all_from n) ∧
      heldAfter (List.range n).reverse (unlock_all_from n) = [] := by
  induction n with
  | zero => simp [unlock_all_from, lockOrdered, heldAfter]
  | succ n ih =>
    simp only [unlock_all_from, lockOrdered, heldAfter, List.range_succ, List.reverse_append,
      List.reverse_singleton, List.singleton_append, List.erase_cons_head]
    exact ⟨⟨by simp, ih.1⟩, ih.2⟩

/-- Acquisitions and releases balance along an ordered trace. -/
theorem lock_balance (tr : List Ev) (i : Nat) :
    ∀ held, lockOrdered held tr →
      tr.count (Ev.lock i) + held.count i =
        tr.count (Ev.unlock i) + (heldAfter held tr).count i := by
  induction tr with
  | nil => intro held _; simp [heldAfter]
  | cons e es ih =>
    intro held h
    cases e with
    | lockParams =>
      have := ih held (by simpa [lockOrdered] using h)
      simpa [heldAfter, List.count_cons] using this
    | unlockParams =>
      have := ih held (by simpa [lockOrdered] using h)
      simpa [heldAfter, List.count_cons] using this
    | say m =>
      have := ih held (by simpa [lockOrdered] using h)
      simpa [heldAfter, List.count_cons] using this
    | lock j =>
      simp only [lockOrdered] at h
      have := ih (j :: held) h.2
      simp only [heldAfter, List.count_cons] at this ⊢
      by_cases hji : j = i
      · subst hji
        simp at this ⊢
        omega
      · have h1 : ¬ (Ev.lock j = Ev.lock i) := by simpa using hji
        simp [hji, h1] at this ⊢
        omega
    | unlock j =>
      simp only [lockOrdered] at h
      have := ih (held.erase j) h.2
      simp only [heldAfter, List.count_cons] at this ⊢
      by_cases hji : j = i
      · subst hji
        have hpos : 0 < held.count j := List.count_pos_iff.2 h.1
        rw [List.count_erase_self] at this
        simp at this ⊢
        omega
      · have h1 : ¬ (Ev.unlock j = Ev.unlock i) := by simpa using hji
        rw [List.count_erase_of_ne (Ne.symm hji)] at this
        simp [hji, h1] at this ⊢
        omega

theorem stepsTrace_held (m : Nat) (left right : Nat) (h : 2 * m ≤ right + 1 - left) :
    ∀ j, j ≤ m → heldAfter [] (stepsTrace left right j) = [] :=
  fun j hj => (stepsTrace_ordered j left right (by omega)).2

/-- The events of the reversal worker, for any `rand()` results and any reads
of the stop flag: either the early return, or the announcement, `m` swap steps
on `[a, b]`, the loop exit and the final decrement. -/
theorem thread_inversion_shape (r1 r2 : Nat) (flagAt : Nat → Bool) (ctx : SharedContext) :
    ∃ a b m, 2 * m ≤ b + 1 - a ∧
      ((thread_inversion r1 r2 flagAt ctx).2 = [Ev.lockParams, Ev.unlockParams] ∨
       (thread_inversion r1 r2 flagAt ctx).2 =
         [Ev.say (Msg.inverting a b)] ++ (stepsTrace a b m ++ loopExit a b m)
           ++ [Ev.lockParams, Ev.unlockParams]) := by
  unfold thread_inversion
  simp only []
  generalize ha : (if r1 % ctx.n > r2 % ctx.n then r2 % ctx.n else r1 % ctx.n) = a
  generalize hb : (if r1 % ctx.n > r2 % ctx.n then r1 % ctx.n else r2 % ctx.n) = b
  by_cases hab : a = b
  · exact ⟨a, b, 0, by omega, Or.inl (by rw [if_pos hab])⟩
  · obtain ⟨m, hm, hfalse, hstop⟩ := first_stop flagAt ((b + 1 - a) / 2) 0
    have h2m : 2 * m ≤ b + 1 - a := by omega
    have htr := inversion_loop_trace flagAt m 0 a b ctx.array h2m hfalse
      (by
        rcases hstop with h | h
        · exact Or.inl h
        · right
          omega)
    refine ⟨a, b, m, h2m, Or.inr ?_⟩
    rw [if_neg hab]
    simp only [htr]

/-! ## Lemmas on the controller -/

theorem handler_some (sig : Signal) (ctx : SharedContext) :
    ∃ a b c, handler sig (some ctx) =
      some { ctx with req_inversion := a, req_print := b, req_exit := c } := by
  cases sig <;> exact ⟨_, _, _, rfl⟩

theorem startup_some (n p : Int) (s0 : Sys) (h : startup n p = some s0) :
    8 ≤ n ∧ n ≤ 256 ∧ 1 ≤ p ∧ p ≤ 16 ∧
    s0 = bootSys n.toNat p.toNat := by
  unfold startup at h
  split at h
  · exact absurd h (by simp)
  · split at h
    · exact absurd h (by simp)
    · simp only [Option.some.injEq] at h
      refine ⟨by omega, by omega, by omega, by omega, h.symm⟩

theorem inv_startup (n p : Int) (s0 : Sys) (h : startup n p = some s0) : Inv s0 := by
  obtain ⟨_, _, hp, _, rfl⟩ := startup_some n p s0 h
  refine ⟨by simp [bootSys, initContext], ?_, by simp [bootSys, initContext],
    by simp [bootSys], by simp [bootSys], by simp [bootSys, initContext],
    by simp [bootSys], by simp [bootSys]⟩
  simp only [bootSys, initContext]
  omega

theorem inv_admission (kind : Kind) (created : Bool) (s : Sys) (pc : MainPc)
    (h : Inv s) (hpc1 : s.pc ≠ MainPc.draining) (hpc2 : s.pc ≠ MainPc.terminated)
    (hpc3 : pc ≠ MainPc.draining) (hpc4 : pc ≠ MainPc.terminated) :
    Inv { admission kind created s with pc := pc } := by
  obtain ⟨hc, hb, hr, hh, hl, hrun, _, _⟩ := h
  have hrun2 := hrun hpc1 hpc2
  unfold admission
  by_cases hge : s.ctx.active_count ≥ (s.ctx.p : Int)
  · rw [if_pos hge]
    exact ⟨hc, hb, hr, hh, hl, fun _ _ => hrun2, fun e => absurd e hpc3,
      fun e => absurd e hpc4⟩
  · rw [if_neg hge]
    cases created with
    | true =>
      simp only [if_true]
      refine ⟨?_, ?_, ?_, ?_, ?_, fun _ _ => hrun2, fun e => absurd e hpc3,
        fun e => absurd e hpc4⟩
      · simp only [add_thread, List.length_append, List.length_singleton]
        push_cast
        omega
      · simp only [add_thread]
        omega
      · simp [add_thread, hr]
      · simp [hh, List.range_succ]
      · simp only [List.map_append, List.map_cons, List.map_nil]
        exact List.Sublist.append hl (List.Sublist.refl _)
    | false =>
      simp only [Bool.false_eq_true, if_false]
      refine ⟨?_, ?_, hr, hh, hl, fun _ _ => hrun2, fun e => absurd e hpc3,
        fun e => absurd e hpc4⟩
      · push_cast
        omega
      · show s.ctx.active_count + 1 ≤ (s.ctx.p : Int)
        omega

theorem inv_clear_inversion (s : Sys) (h : Inv s) :
    Inv { s with ctx := { s.ctx with req_inversion := 0 } } :=
  ⟨h.count, h.bound, h.registry, h.handles, h.liveSub, h.running, h.drain, h.done⟩

theorem inv_clear_print (s : Sys) (h : Inv s) :
    Inv { s with ctx := { s.ctx with req_print := 0 } } :=
  ⟨h.count, h.bound, h.registry, h.handles, h.liveSub, h.running, h.drain, h.done⟩

theorem inv_set_pc (s : Sys) (pc : MainPc) (h : Inv s)
    (hpc1 : s.pc ≠ MainPc.draining) (hpc2 : s.pc ≠ MainPc.terminated)
    (hpc3 : pc ≠ MainPc.draining) (hpc4 : pc ≠ MainPc.terminated) :
    Inv { s with pc := pc } :=
  ⟨h.count, h.bound, h.registry, h.handles, h.liveSub, fun _ _ => h.running hpc1 hpc2,
    fun e => absurd e hpc3, fun e => absurd e hpc4⟩

theorem inv_main_step (created : Bool) (s : Sys) (h : Inv s) : Inv (main_step created s) := by
  unfold main_step
  split
  · rename_i hpc
    by_cases hx : s.ctx.req_exit ≠ 0
    · rw [if_pos hx]
      refine ⟨h.count, h.bound, h.registry, h.handles, h.liveSub, fun e => absurd rfl e,
        fun _ => ⟨rfl, ?_, ?_⟩, fun e => by simp [begin_drain] at e⟩
      · have := (h.running (by simp [hpc]) (by simp [hpc])).2
        simp [begin_drain, this]
      · intro w hw
        have h1 : w.1 ∈ s.live.map Prod.fst := List.mem_map_of_mem Prod.fst hw
        have h2 : w.1 ∈ s.spawned := h.liveSub.subset h1
        simp only [begin_drain, h.registry, List.mem_reverse]
        exact h2
    · rw [if_neg hx]
      exact inv_set_pc s _ h (by simp [hpc]) (by simp [hpc]) (by simp) (by simp)
  · rename_i hpc
    unfold handle_inversion
    by_cases hq : s.ctx.req_inversion ≠ 0
    · rw [if_pos hq]
      exact inv_admission _ _ _ _ (inv_clear_inversion s h) (by simp [hpc]) (by simp [hpc])
        (by simp) (by simp)
    · rw [if_neg hq]
      exact inv_set_pc s _ h (by simp [hpc]) (by simp [hpc]) (by simp) (by simp)
  · rename_i hpc
    unfold handle_print
    by_cases hq : s.ctx.req_print ≠ 0
    · rw [if_pos hq]
      exact inv_admission _ _ _ _ (inv_clear_print s h) (by simp [hpc]) (by simp [hpc])
        (by simp) (by simp)
    · rw [if_neg hq]
      exact inv_set_pc s _ h (by simp [hpc]) (by simp [hpc]) (by simp) (by simp)
  · rename_i hpc
    obtain ⟨hstop, hjc, hlive⟩ := h.drain hpc
    unfold drain_step
    split
    · rename_i hcurr
      refine ⟨h.count, h.bound, h.registry, h.handles, h.liveSub, fun _ e => absurd rfl e,
        fun e => by simp at e, fun _ => ⟨hstop, ?_, ?_⟩⟩
      · simpa [hcurr] using hjc
      · cases hl : s.live with
        | nil => rfl
        | cons w ws =>
          have := hlive w (by simp [hl])
          simp [hcurr] at this
    · rename_i tid rest hcurr
      by_cases hany : (s.live.any (fun w => w.1 == tid)) = true
      · rw [if_pos hany]
        exact h
      · rw [if_neg hany]
        refine ⟨h.count, h.bound, h.registry, h.handles, h.liveSub,
          fun e => absurd hpc e, fun _ => ⟨hstop, ?_, ?_⟩, fun e => ?_⟩
        · simpa [hcurr] using hjc
        · intro w hw
          have hin := hlive w hw
          rw [hcurr] at hin
          rcases List.mem_cons.1 hin with e | e
          · exfalso
            apply hany
            rw [List.any_eq_true]
            exact ⟨w, hw, by simp [e]⟩
          · exact e
        · have e2 : s.pc = MainPc.terminated := e
          rw [hpc] at e2
          exact absurd e2 (by simp)
  · exact h

theorem inv_step (s : Sys) (e : Event) (h : Inv s) : Inv (step s e) := by
  cases e with
  | signal sig =>
    simp only [step]
    split
    · exact h
    · obtain ⟨a, b, c, hh⟩ := handler_some sig s.ctx
      rw [hh]
      exact ⟨h.count, h.bound, h.registry, h.handles, h.liveSub, h.running, h.drain, h.done⟩
  | main created => exact inv_main_step created s h
  | workerExit tid r1 r2 flagAt =>
    simp only [step]
    split
    · exact h
    · rename_i w hfind
      have hmem : w ∈ s.live := List.mem_of_find?_eq_some hfind
      obtain ⟨arr, hw⟩ := worker_body_eq w.2 r1 r2 flagAt s.ctx
      rw [hw]
      have hlen : (s.live.erase w).length + 1 = s.live.length := by
        rw [List.length_erase_of_mem hmem]
        have : 0 < s.live.length := List.length_pos_of_mem hmem
        omega
      have hsub : (s.live.erase w).Sublist s.live := List.erase_sublist w s.live
      refine ⟨?_, ?_, h.registry, h.handles, (hsub.map Prod.fst).trans h.liveSub,
        h.running, fun e => ?_, fun e => ?_⟩
      · have := h.count
        show s.ctx.active_count - 1 = ((s.live.erase w).length : Int) + (s.failedCreates : Int)
        omega
      · have := h.bound
        show s.ctx.active_count - 1 ≤ (s.ctx.p : Int)
        omega
      · obtain ⟨h1, h2, h3⟩ := h.drain e
        exact ⟨h1, h2, fun v hv => h3 v (hsub.subset hv)⟩
      · obtain ⟨h1, h2, h3⟩ := h.done e
        rw [h3] at hmem
        exact absurd hmem (by simp)

theorem inv_run (evs : List Event) : ∀ (s : Sys), Inv s → Inv (run s evs) := by
  induction evs with
  | nil => intro s h; exact h
  | cons e es ih =>
    intro s h
    exact ih (step s e) (inv_step s e h)

theorem admission_count (kind : Kind) (created : Bool) (s : Sys) :
    (admission kind created s).ctx.active_count =
      if s.ctx.active_count ≥ (s.ctx.p : Int) then s.ctx.active_count
      else s.ctx.active_count + 1 := by
  unfold admission
  split
  · rfl
  · cases created <;> rfl

theorem admission_static (kind : Kind) (created : Bool) (s : Sys) :
    (admission kind created s).ctx.p = s.ctx.p ∧ (admission kind created s).ctx.n = s.ctx.n := by
  unfold admission
  split
  · exact ⟨rfl, rfl⟩
  · cases created <;> exact ⟨rfl, rfl⟩

theorem main_step_static (created : Bool) (s : Sys) :
    (main_step created s).ctx.p = s.ctx.p ∧ (main_step created s).ctx.n = s.ctx.n := by
  unfold main_step
  split
  · split <;> exact ⟨rfl, rfl⟩
  · unfold handle_inversion
    split
    · exact admission_static _ _ _
    · exact ⟨rfl, rfl⟩
  · unfold handle_print
    split
    · exact admission_static _ _ _
    · exact ⟨rfl, rfl⟩
  · unfold drain_step
    split
    · exact ⟨rfl, rfl⟩
    · split <;> exact ⟨rfl, rfl⟩
  · exact ⟨rfl, rfl⟩

theorem step_static (s : Sys) (e : Event) :
    (step s e).ctx.p = s.ctx.p ∧ (step s e).ctx.n = s.ctx.n := by
  cases e with
  | signal sig =>
    simp only [step]
    split
    · exact ⟨rfl, rfl⟩
    · obtain ⟨a, b, c, hh⟩ := handler_some sig s.ctx
      rw [hh]
      exact ⟨rfl, rfl⟩
  | main created => exact main_step_static created s
  | workerExit tid r1 r2 flagAt =>
    simp only [step]
    split
    · exact ⟨rfl, rfl⟩
    · rename_i w _
      obtain ⟨arr, hw⟩ := worker_body_eq w.2 r1 r2 flagAt s.ctx
      rw [hw]
      exact ⟨rfl, rfl⟩

theorem run_static (evs : List Event) :
    ∀ s : Sys, (run s evs).ctx.p = s.ctx.p ∧ (run s evs).ctx.n = s.ctx.n := by
  induction evs with
  | nil => intro s; exact ⟨rfl, rfl⟩
  | cons e es ih =>
    intro s
    have h1 := ih (step s e)
    have h2 := step_static s e
    exact ⟨h1.1.trans h2.1, h1.2.trans h2.2⟩

theorem main_step_count (created : Bool) (s : Sys) :
    (main_step created s).ctx.active_count = s.ctx.active_count ∨
    ((main_step created s).ctx.active_count = s.ctx.active_count + 1 ∧
      s.ctx.active_count < (s.ctx.p : Int)) := by
  unfold main_step
  split
  · split <;> exact Or.inl rfl
  · unfold handle_inversion
    split
    · show (admission _ _ _).ctx.active_count = _ ∨ _
      rw [admission_count]
      split
      · exact Or.inl rfl
      · rename_i h
        exact Or.inr ⟨rfl, by simpa using h⟩
    · exact Or.inl rfl
  · unfold handle_print
    split
    · show (admission _ _ _).ctx.active_count = _ ∨ _
      rw [admission_count]
      split
      · exact Or.inl rfl
      · rename_i h
        exact Or.inr ⟨rfl, by simpa using h⟩
    · exact Or.inl rfl
  · unfold drain_step
    split
    · exact Or.inl rfl
    · split <;> exact Or.inl rfl
  · exact Or.inl rfl

theorem live_nodup (s : Sys) (h : Inv s) : s.live.Nodup := by
  have h1 : (s.live.map Prod.fst).Nodup := by
    apply List.Nodup.sublist h.liveSub
    rw [h.handles]
    exact List.nodup_range s.nextTid
  exact List.Nodup.of_map _ h1

/-- How one event changes `active_count`. -/
theorem step_count (s : Sys) (h : Inv s) (e : Event) :
    (step s e).ctx.active_count = s.ctx.active_count ∨
    ((step s e).ctx.active_count = s.ctx.active_count + 1 ∧
      s.ctx.active_count < (s.ctx.p : Int) ∧ ∃ created, e = Event.main created) ∨
    ((step s e).ctx.active_count = s.ctx.active_count - 1 ∧
      ∃ w ∈ s.live, (∃ r1 r2 flagAt, e = Event.workerExit w.1 r1 r2 flagAt) ∧
        (step s e).live = s.live.erase w ∧ w ∉ (step s e).live) := by
  cases e with
  | signal sig =>
    left
    simp only [step]
    split
    · rfl
    · obtain ⟨a, b, c, hh⟩ := handler_some sig s.ctx
      rw [hh]
  | main created =>
    rcases main_step_count created s with h1 | h1
    · exact Or.inl h1
    · exact Or.inr (Or.inl ⟨h1.1, h1.2, created, rfl⟩)
  | workerExit tid r1 r2 flagAt =>
    simp only [step]
    split
    · exact Or.inl rfl
    · rename_i w hfind
      right
      right
      have hmem : w ∈ s.live := List.mem_of_find?_eq_some hfind
      have htid : w.1 = tid := by
        have := List.find?_some hfind
        simpa using this
      obtain ⟨arr, hw⟩ := worker_body_eq w.2 r1 r2 flagAt s.ctx
      rw [hw]
      refine ⟨rfl, w, hmem, ⟨r1, r2, flagAt, by rw [htid]⟩, rfl, ?_⟩
      exact fun hin => ((live_nodup s h).mem_erase_iff.1 hin).1 rfl

set_option linter.unusedTactic false
set_option linter.unreachableTactic false
set_option linter.unnecessarySeqFocus false

theorem next_acquire (n : Nat) (stop : Bool) (pc pc' : WPc) (j : Nat)
    (hwf : wellFormed n pc) (h : next n stop pc = some (Act.acquire j, pc')) :
    wellFormed n pc' ∧ j < n ∧
    (∀ i, holdsElem n pc' i ↔ (holdsElem n pc i ∨ i = j)) ∧
    (∀ i, holdsElem n pc i → i < j) ∧ ¬ holdsParams pc ∧ ¬ holdsParams pc' := by
  cases pc <;> simp only [next] at h
  case invStart r1 r2 => split_ifs at h <;> simp at h
  case invHead l r => split_ifs at h <;> simp at h
  case invCheck l r => split_ifs at h <;> simp at h
  case invLockLeft l r =>
    simp only [Option.some.injEq, Prod.mk.injEq, Act.acquire.injEq] at h
    obtain ⟨rfl, rfl⟩ := h
    simp only [wellFormed] at hwf
    simp only [wellFormed, holdsElem, holdsParams]
    exact ⟨hwf, by omega, by simp, by simp, by simp, by simp⟩
  case invLockRight l r =>
    simp only [Option.some.injEq, Prod.mk.injEq, Act.acquire.injEq] at h
    obtain ⟨rfl, rfl⟩ := h
    simp only [wellFormed] at hwf
    simp only [wellFormed, holdsElem, holdsParams]
    exact ⟨hwf, by omega, by simp, fun i hi => by omega, by simp, by simp⟩
  case invSwap l r => simp at h
  case invUnlockRight l r => simp at h
  case invUnlockLeft l r => simp at h
  case prtLock k =>
    split_ifs at h with hk
    · simp only [Option.some.injEq, Prod.mk.injEq, Act.acquire.injEq] at h
      obtain ⟨rfl, rfl⟩ := h
      simp only [wellFormed, holdsElem, holdsParams]
      exact ⟨by omega, hk, fun i => by omega, fun i hi => hi, by simp, by simp⟩
    · simp at h
  case prtPrint => simp at h
  case prtUnlock k => cases k <;> simp [next] at h
  case release => simp at h
  case releaseLocked => simp at h
  case done => simp at h

theorem next_unlockElem (n : Nat) (stop : Bool) (pc pc' : WPc) (j : Nat)
    (hwf : wellFormed n pc) (h : next n stop pc = some (Act.unlockElem j, pc')) :
    wellFormed n pc' ∧ holdsElem n pc j ∧
    (∀ i, holdsElem n pc' i ↔ (holdsElem n pc i ∧ i ≠ j)) ∧
    ¬ holdsParams pc ∧ ¬ holdsParams pc' := by
  cases pc <;> simp only [next] at h
  case invStart r1 r2 => split_ifs at h <;> simp at h
  case invHead l r => split_ifs at h <;> simp at h
  case invCheck l r => split_ifs at h <;> simp at h
  case invLockLeft l r => simp at h
  case invLockRight l r => simp at h
  case invSwap l r => simp at h
  case invUnlockRight l r =>
    simp only [Option.some.injEq, Prod.mk.injEq, Act.unlockElem.injEq] at h
    obtain ⟨rfl, rfl⟩ := h
    simp only [wellFormed] at hwf
    simp only [wellFormed, holdsElem, holdsParams]
    exact ⟨hwf, by simp, fun i => by omega, by simp, by simp⟩
  case invUnlockLeft l r =>
    simp only [Option.some.injEq, Prod.mk.injEq, Act.unlockElem.injEq] at h
    obtain ⟨rfl, rfl⟩ := h
    simp only [wellFormed] at hwf
    simp only [wellFormed, holdsElem, holdsParams]
    exact ⟨by omega, by simp, fun i => by simp, by simp, by simp⟩
  case prtLock k => split_ifs at h <;> simp at h
  case prtPrint => simp at h
  case prtUnlock k =>
    cases k with
    | zero => simp [next] at h
    | succ k =>
      simp only [next, Option.some.injEq, Prod.mk.injEq, Act.unlockElem.injEq] at h
      obtain ⟨rfl, rfl⟩ := h
      simp only [wellFormed] at hwf
      simp only [wellFormed, holdsElem, holdsParams]
      exact ⟨by omega, by omega, fun i => by omega, by simp, by simp⟩
  case release => simp at h
  case releaseLocked => simp at h
  case done => simp at h

theorem next_acquireParams (n : Nat) (stop : Bool) (pc pc' : WPc)
    (hwf : wellFormed n pc) (h : next n stop pc = some (Act.acquireParams, pc')) :
    wellFormed n pc' ∧ (∀ i, holdsElem n pc' i ↔ holdsElem n pc i) ∧
    ¬ holdsParams pc ∧ holdsParams pc' := by
  cases pc <;> simp only [next] at h
  case invStart r1 r2 => split_ifs at h <;> simp at h
  case invHead l r =>
    split_ifs at h with hlt
    · simp only [Option.some.injEq, Prod.mk.injEq, true_and] at h
      subst h
      simp only [wellFormed] at hwf
      simp only [wellFormed, holdsElem, holdsParams]
      exact ⟨⟨hlt, hwf⟩, by simp, by simp, trivial⟩
    · simp at h
  case invCheck l r => split_ifs at h <;> simp at h
  case invLockLeft l r => simp at h
  case invLockRight l r => simp at h
  case invSwap l r => simp at h
  case invUnlockRight l r => simp at h
  case invUnlockLeft l r => simp at h
  case prtLock k => split_ifs at h <;> simp at h
  case prtPrint => simp at h
  case prtUnlock k => cases k <;> simp [next] at h
  case release =>
    simp only [Option.some.injEq, Prod.mk.injEq, true_and] at h
    subst h
    simp [wellFormed, holdsElem, holdsParams]
  case releaseLocked => simp at h
  case done => simp at h

theorem next_unlockParams (n : Nat) (stop : Bool) (pc pc' : WPc)
    (hwf : wellFormed n pc) (h : next n stop pc = some (Act.unlockParams, pc')) :
    wellFormed n pc' ∧ (∀ i, holdsElem n pc' i ↔ holdsElem n pc i) ∧
    holdsParams pc ∧ ¬ holdsParams pc' := by
  rcases pc with ⟨r1, r2⟩ | _ | _ | _ | _ | _ | _ | _ | k | _ | k | _ | _ | _ <;>
    (try rcases k with _ | k) <;>
    simp only [next] at h <;>
    (try split_ifs at h) <;>
    (try simp only [Option.some.injEq, Prod.mk.injEq, reduceCtorEq, false_and, and_false] at h) <;>
    (try exact h.elim) <;>
    (try obtain ⟨h1, h2⟩ := h) <;>
    (try subst h2) <;>
    simp only [wellFormed, holdsElem, holdsParams] at hwf ⊢ <;>
    (try simp) <;>
    (try omega)

theorem next_decrementUnlock (n : Nat) (stop : Bool) (pc pc' : WPc)
    (hwf : wellFormed n pc) (h : next n stop pc = some (Act.decrementUnlock, pc')) :
    wellFormed n pc' ∧ (∀ i, holdsElem n pc' i ↔ holdsElem n pc i) ∧
    holdsParams pc ∧ ¬ holdsParams pc' := by
  rcases pc with ⟨r1, r2⟩ | _ | _ | _ | _ | _ | _ | _ | k | _ | k | _ | _ | _ <;>
    (try rcases k with _ | k) <;>
    simp only [next] at h <;>
    (try split_ifs at h) <;>
    (try simp only [Option.some.injEq, Prod.mk.injEq, reduceCtorEq, false_and, and_false] at h) <;>
    (try exact h.elim) <;>
    (try obtain ⟨h1, h2⟩ := h) <;>
    (try subst h2) <;>
    simp only [wellFormed, holdsElem, holdsParams] at hwf ⊢ <;>
    (try simp) <;>
    (try omega)

theorem next_tau (n : Nat) (stop : Bool) (pc pc' : WPc) (hn : 0 < n)
    (hwf : wellFormed n pc) (h : next n stop pc = some (Act.tau, pc')) :
    wellFormed n pc' ∧ (∀ i, holdsElem n pc' i ↔ holdsElem n pc i) ∧
    ¬ holdsParams pc ∧ ¬ holdsParams pc' := by
  rcases pc with ⟨r1, r2⟩ | _ | _ | _ | _ | _ | _ | _ | k | _ | k | _ | _ | _ <;>
    (try rcases k with _ | k) <;>
    simp only [next] at h <;>
    (try split_ifs at h) <;>
    (try simp only [Option.some.injEq, Prod.mk.injEq, reduceCtorEq, false_and, and_false] at h) <;>
    (try exact h.elim) <;>
    (try obtain ⟨h1, h2⟩ := h) <;>
    (try subst h2) <;>
    simp only [wellFormed, holdsElem, holdsParams] at hwf ⊢ <;>
    (try simp) <;>
    (try omega) <;>
    (try exact Nat.mod_lt _ hn)

theorem next_snapshot (n : Nat) (stop : Bool) (pc pc' : WPc) (hn : 0 < n)
    (hwf : wellFormed n pc) (h : next n stop pc = some (Act.snapshot, pc')) :
    wellFormed n pc' ∧ (∀ i, holdsElem n pc' i ↔ holdsElem n pc i) ∧
    ¬ holdsParams pc ∧ ¬ holdsParams pc' := by
  rcases pc with ⟨r1, r2⟩ | _ | _ | _ | _ | _ | _ | _ | k | _ | k | _ | _ | _ <;>
    (try rcases k with _ | k) <;>
    simp only [next] at h <;>
    (try split_ifs at h) <;>
    (try simp only [Option.some.injEq, Prod.mk.injEq, reduceCtorEq, false_and, and_false] at h) <;>
    (try exact h.elim) <;>
    (try obtain ⟨h1, h2⟩ := h) <;>
    (try subst h2) <;>
    simp only [wellFormed, holdsElem, holdsParams] at hwf ⊢ <;>
    (try simp) <;>
    (try omega) <;>
    (try exact Nat.mod_lt _ hn)

theorem next_say (n : Nat) (stop : Bool) (pc pc' : WPc) (m : Msg) (hn : 0 < n)
    (hwf : wellFormed n pc) (h : next n stop pc = some (Act.say m, pc')) :
    wellFormed n pc' ∧ (∀ i, holdsElem n pc' i ↔ holdsElem n pc i) ∧
    ¬ holdsParams pc ∧ ¬ holdsParams pc' := by
  rcases pc with ⟨r1, r2⟩ | _ | _ | _ | _ | _ | _ | _ | k | _ | k | _ | _ | _ <;>
    (try rcases k with _ | k) <;>
    simp only [next] at h <;>
    (try split_ifs at h) <;>
    (try simp only [Option.some.injEq, Prod.mk.injEq, reduceCtorEq, false_and, and_false] at h) <;>
    (try exact h.elim) <;>
    (try obtain ⟨h1, h2⟩ := h) <;>
    (try subst h2) <;>
    simp only [wellFormed, holdsElem, holdsParams] at hwf ⊢ <;>
    (try simp) <;>
    (try omega) <;>
    (try exact Nat.mod_lt _ hn)

theorem next_swap (n : Nat) (stop : Bool) (pc pc' : WPc) (left right : Nat) (hn : 0 < n)
    (hwf : wellFormed n pc) (h : next n stop pc = some (Act.swap left right, pc')) :
    wellFormed n pc' ∧ (∀ i, holdsElem n pc' i ↔ holdsElem n pc i) ∧
    ¬ holdsParams pc ∧ ¬ holdsParams pc' := by
  rcases pc with ⟨r1, r2⟩ | _ | _ | _ | _ | _ | _ | _ | k | _ | k | _ | _ | _ <;>
    (try rcases k with _ | k) <;>
    simp only [next] at h <;>
    (try split_ifs at h) <;>
    (try simp only [Option.some.injEq, Prod.mk.injEq, reduceCtorEq, false_and, and_false] at h) <;>
    (try exact h.elim) <;>
    (try obtain ⟨h1, h2⟩ := h) <;>
    (try subst h2) <;>
    simp only [wellFormed, holdsElem, holdsParams] at hwf ⊢ <;>
    (try simp) <;>
    (try omega) <;>
    (try exact Nat.mod_lt _ hn)

theorem next_weight (n : Nat) (stop : Bool) (pc pc' : WPc) (act : Act) (hn : 0 < n)
    (hwf : wellFormed n pc) (h : next n stop pc = some (act, pc')) :
    weight n pc' < weight n pc := by
  rcases pc with ⟨r1, r2⟩ | _ | _ | _ | _ | _ | _ | _ | k | _ | k | _ | _ | _ <;>
    (try rcases k with _ | k) <;>
    simp only [next] at h <;>
    (try split_ifs at h) <;>
    (try simp only [Option.some.injEq, Prod.mk.injEq, reduceCtorEq, false_and, and_false] at h) <;>
    (try exact h.elim) <;>
    (try obtain ⟨h1, h2⟩ := h) <;>
    (try subst h2) <;>
    simp only [wellFormed, weight] at hwf ⊢ <;>
    (try omega) <;>
    (first
      | omega
      | (have hr1 : r1 % n < n := Nat.mod_lt r1 hn
         have hr2 : r2 % n < n := Nat.mod_lt r2 hn
         omega))

theorem next_none (n : Nat) (stop : Bool) (pc : WPc) (h : next n stop pc = none) :
    pc = WPc.done := by
  rcases pc with ⟨r1, r2⟩ | _ | _ | _ | _ | _ | _ | _ | k | _ | k | _ | _ | _ <;>
    (try rcases k with _ | k) <;>
    simp only [next] at h <;>
    (try split_ifs at h) <;>
    (try simp at h) <;>
    rfl

theorem lt_of_getElem? {α : Type} {l : List α} {t : Nat} {a : α} (h : l[t]? = some a) :
    t < l.length := by
  by_contra hlt
  rw [List.getElem?_eq_none (by omega)] at h
  exact absurd h (by simp)

theorem getElem?_set_same {α : Type} {l : List α} {t : Nat} {a b : α} (h : l[t]? = some a) :
    (l.set t b)[t]? = some b := by
  rw [List.getElem?_set, if_pos rfl, if_pos (lt_of_getElem? h)]

theorem set_pred (pcs : List WPc) (t : Nat) (pc pc' : WPc) (P : WPc → Prop)
    (hpc : pcs[t]? = some pc) (hall : ∀ (u : Nat) (q : WPc), pcs[u]? = some q → P q)
    (hnew : P pc') :
    ∀ (u : Nat) (q : WPc), (pcs.set t pc')[u]? = some q → P q := by
  intro u q hq
  by_cases hut : t = u
  · subst hut
    rw [getElem?_set_same hpc] at hq
    simp only [Option.some.injEq] at hq
    rw [← hq]
    exact hnew
  · rw [List.getElem?_set_ne hut] at hq
    exact hall u q hq

theorem sum_set_lt (w : WPc → Nat) (pc pc' : WPc) (hw : w pc' < w pc) :
    ∀ (pcs : List WPc) (t : Nat), pcs[t]? = some pc →
      ((pcs.set t pc').map w).sum < (pcs.map w).sum := by
  intro pcs
  induction pcs with
  | nil => intro t h; simp at h
  | cons q qs ih =>
    intro t h
    cases t with
    | zero =>
      simp only [List.getElem?_cons_zero, Option.some.injEq] at h
      subst h
      simp only [List.set_cons_zero, List.map_cons, List.sum_cons]
      omega
    | succ t =>
      simp only [List.getElem?_cons_succ] at h
      have := ih t h
      simp only [List.set_cons_succ, List.map_cons, List.sum_cons]
      omega

/-- Ownership after a thread's step that leaves the element mutexes alone. -/
theorem own_local (H : WPc → Nat → Prop) (locks : List (Option Nat)) (pcs : List WPc)
    (t : Nat) (pc pc' : WPc)
    (hown : ∀ i u, locks[i]? = some (some u) ↔ ∃ q, pcs[u]? = some q ∧ H q i)
    (hpc : pcs[t]? = some pc) (hrel : ∀ i, H pc' i ↔ H pc i) :
    ∀ i u, locks[i]? = some (some u) ↔ ∃ q, (pcs.set t pc')[u]? = some q ∧ H q i := by
  intro i u
  rw [hown i u]
  by_cases hut : t = u
  · subst hut
    rw [getElem?_set_same hpc, hpc]
    simp [hrel]
  · rw [List.getElem?_set_ne hut]

/-- Ownership after a thread has acquired the free element mutex `j`. -/
theorem own_acquire (H : WPc → Nat → Prop) (locks : List (Option Nat)) (pcs : List WPc)
    (t j : Nat) (pc pc' : WPc)
    (hown : ∀ i u, locks[i]? = some (some u) ↔ ∃ q, pcs[u]? = some q ∧ H q i)
    (hpc : pcs[t]? = some pc) (hfree : locks[j]? = some none)
    (hrel : ∀ i, H pc' i ↔ (H pc i ∨ i = j)) :
    ∀ i u, (locks.set j (some t))[i]? = some (some u) ↔
      ∃ q, (pcs.set t pc')[u]? = some q ∧ H q i := by
  intro i u
  have hj : j < locks.length := lt_of_getElem? hfree
  by_cases hij : j = i
  · subst hij
    rw [List.getElem?_set, if_pos rfl, if_pos hj]
    by_cases hut : t = u
    · subst hut
      rw [getElem?_set_same hpc]
      simp [hrel]
    · rw [List.getElem?_set_ne hut]
      constructor
      · intro h
        simp only [Option.some.injEq] at h
        exact absurd h hut
      · intro h
        have := (hown j u).2 h
        rw [hfree] at this
        exact absurd this (by simp)
  · rw [List.getElem?_set_ne hij, hown i u]
    by_cases hut : t = u
    · subst hut
      rw [getElem?_set_same hpc, hpc]
      have : i ≠ j := fun e => hij e.symm
      simp [hrel, this]
    · rw [List.getElem?_set_ne hut]

/-- Ownership after a thread has released the element mutex `j` it owned. -/
theorem own_release (H : WPc → Nat → Prop) (locks : List (Option Nat)) (pcs : List WPc)
    (t j : Nat) (pc pc' : WPc)
    (hown : ∀ i u, locks[i]? = some (some u) ↔ ∃ q, pcs[u]? = some q ∧ H q i)
    (hpc : pcs[t]? = some pc) (hheld : H pc j)
    (hrel : ∀ i, H pc' i ↔ (H pc i ∧ i ≠ j)) :
    ∀ i u, (locks.set j none)[i]? = some (some u) ↔
      ∃ q, (pcs.set t pc')[u]? = some q ∧ H q i := by
  intro i u
  have hjt : locks[j]? = some (some t) := (hown j t).2 ⟨pc, hpc, hheld⟩
  have hj : j < locks.length := lt_of_getElem? hjt
  by_cases hij : j = i
  · subst hij
    rw [List.getElem?_set, if_pos rfl, if_pos hj]
    by_cases hut : t = u
    · subst hut
      rw [getElem?_set_same hpc]
      simp [hrel]
    · rw [List.getElem?_set_ne hut]
      constructor
      · intro h
        exact absurd h (by simp)
      · intro h
        have := (hown j u).2 h
        rw [hjt] at this
        simp only [Option.some.injEq] at this
        exact absurd this hut
  · rw [List.getElem?_set_ne hij, hown i u]
    by_cases hut : t = u
    · subst hut
      rw [getElem?_set_same hpc, hpc]
      have : i ≠ j := fun e => hij e.symm
      simp [hrel, this]
    · rw [List.getElem?_set_ne hut]

theorem pown_local (mx : Option Nat) (pcs : List WPc) (t : Nat) (pc pc' : WPc)
    (hown : ∀ u, mx = some u ↔ ∃ q, pcs[u]? = some q ∧ holdsParams q)
    (hpc : pcs[t]? = some pc) (h1 : ¬ holdsParams pc) (h2 : ¬ holdsParams pc') :
    ∀ u, mx = some u ↔ ∃ q, (pcs.set t pc')[u]? = some q ∧ holdsParams q := by
  intro u
  rw [hown u]
  by_cases hut : t = u
  · subst hut
    rw [getElem?_set_same hpc, hpc]
    simp [h1, h2]
  · rw [List.getElem?_set_ne hut]

theorem pown_acquire (mx : Option Nat) (pcs : List WPc) (t : Nat) (pc pc' : WPc)
    (hown : ∀ u, mx = some u ↔ ∃ q, pcs[u]? = some q ∧ holdsParams q)
    (hpc : pcs[t]? = some pc) (hfree : mx = none) (h2 : holdsParams pc') :
    ∀ u, some t = some u ↔ ∃ q, (pcs.set t pc')[u]? = some q ∧ holdsParams q := by
  intro u
  by_cases hut : t = u
  · subst hut
    rw [getElem?_set_same hpc]
    simp [h2]
  · rw [List.getElem?_set_ne hut]
    constructor
    · intro h
      simp only [Option.some.injEq] at h
      exact absurd h hut
    · intro h
      have := (hown u).2 h
      rw [hfree] at this
      exact absurd this (by simp)

theorem pown_release (mx : Option Nat) (pcs : List WPc) (t : Nat) (pc pc' : WPc)
    (hown : ∀ u, mx = some u ↔ ∃ q, pcs[u]? = some q ∧ holdsParams q)
    (hpc : pcs[t]? = some pc) (h1 : holdsParams pc) (h2 : ¬ holdsParams pc') :
    ∀ u, (none : Option Nat) = some u ↔
      ∃ q, (pcs.set t pc')[u]? = some q ∧ holdsParams q := by
  intro u
  have hmx : mx = some t := (hown t).2 ⟨pc, hpc, h1⟩
  by_cases hut : t = u
  · subst hut
    rw [getElem?_set_same hpc]
    simp [h2]
  · rw [List.getElem?_set_ne hut]
    constructor
    · intro h
      exact absurd h (by simp)
    · intro h
      have := (hown u).2 h
      rw [hmx] at this
      simp only [Option.some.injEq] at this
      exact absurd this hut

/-- A successful action keeps the invariant and lowers `stepsLeft`. -/
theorem exec_inv (c c' : Conc) (t : Nat) (h : CInv c) (he : exec c t = some c') :
    CInv c' ∧ stepsLeft c' < stepsLeft c := by
  unfold exec at he
  cases hpc : c.pcs[t]? with
  | none => simp [hpc] at he
  | some pc =>
    cases hnx : next c.ctx.n c.ctx.stop_flag pc with
    | none => simp [hpc, hnx] at he
    | some r =>
      obtain ⟨act, pc'⟩ := r
      have hwf := h.wf t pc hpc
      have hw := next_weight _ _ _ _ _ h.pos hwf hnx
      have hsum := sum_set_lt (weight c.ctx.n) pc pc' hw c.pcs t hpc
      simp only [hpc, hnx] at he
      cases act with
      | acquire j =>
        simp only [] at he
        split_ifs at he with hfree
        simp only [Option.some.injEq] at he
        subst he
        obtain ⟨w1, _, w3, _, w5, w6⟩ := next_acquire _ _ _ _ _ hwf hnx
        exact ⟨⟨h.pos, by simp [h.len], set_pred _ _ _ _ _ hpc h.wf w1,
          own_acquire _ _ _ _ _ _ _ h.own hpc hfree w3,
          pown_local _ _ _ _ _ h.pown hpc w5 w6⟩, hsum⟩
      | unlockElem j =>
        simp only [Option.some.injEq] at he
        subst he
        obtain ⟨w1, w2, w3, w5, w6⟩ := next_unlockElem _ _ _ _ _ hwf hnx
        exact ⟨⟨h.pos, by simp [h.len], set_pred _ _ _ _ _ hpc h.wf w1,
          own_release _ _ _ _ _ _ _ h.own hpc w2 w3,
          pown_local _ _ _ _ _ h.pown hpc w5 w6⟩, hsum⟩
      | acquireParams =>
        simp only [] at he
        split_ifs at he with hfree
        simp only [Option.some.injEq] at he
        subst he
        obtain ⟨w1, w3, _, w6⟩ := next_acquireParams _ _ _ _ hwf hnx
        exact ⟨⟨h.pos, h.len, set_pred _ _ _ _ _ hpc h.wf w1,
          own_local _ _ _ _ _ _ h.own hpc w3,
          pown_acquire _ _ _ _ _ h.pown hpc hfree w6⟩, hsum⟩
      | unlockParams =>
        simp only [Option.some.injEq] at he
        subst he
        obtain ⟨w1, w3, w5, w6⟩ := next_unlockParams _ _ _ _ hwf hnx
        exact ⟨⟨h.pos, h.len, set_pred _ _ _ _ _ hpc h.wf w1,
          own_local _ _ _ _ _ _ h.own hpc w3,
          pown_release _ _ _ _ _ h.pown hpc w5 w6⟩, hsum⟩
      | decrementUnlock =>
        simp only [Option.some.injEq] at he
        subst he
        obtain ⟨w1, w3, w5, w6⟩ := next_decrementUnlock _ _ _ _ hwf hnx
        exact ⟨⟨h.pos, h.len, set_pred _ _ _ _ _ hpc h.wf w1,
          own_local _ _ _ _ _ _ h.own hpc w3,
          pown_release _ _ _ _ _ h.pown hpc w5 w6⟩, hsum⟩
      | swap left right =>
        simp only [Option.some.injEq] at he
        subst he
        obtain ⟨w1, w3, w5, w6⟩ := next_swap _ _ _ _ _ _ h.pos hwf hnx
        exact ⟨⟨h.pos, h.len, set_pred _ _ _ _ _ hpc h.wf w1,
          own_local _ _ _ _ _ _ h.own hpc w3,
          pown_local _ _ _ _ _ h.pown hpc w5 w6⟩, hsum⟩
      | say m =>
        simp only [Option.some.injEq] at he
        subst he
        obtain ⟨w1, w3, w5, w6⟩ := next_say _ _ _ _ _ h.pos hwf hnx
        exact ⟨⟨h.pos, h.len, set_pred _ _ _ _ _ hpc h.wf w1,
          own_local _ _ _ _ _ _ h.own hpc w3,
          pown_local _ _ _ _ _ h.pown hpc w5 w6⟩, hsum⟩
      | snapshot =>
        simp only [Option.some.injEq] at he
        subst he
        obtain ⟨w1, w3, w5, w6⟩ := next_snapshot _ _ _ _ h.pos hwf hnx
        exact ⟨⟨h.pos, h.len, set_pred _ _ _ _ _ hpc h.wf w1,
          own_local _ _ _ _ _ _ h.own hpc w3,
          pown_local _ _ _ _ _ h.pown hpc w5 w6⟩, hsum⟩
      | tau =>
        simp only [Option.some.injEq] at he
        subst he
        obtain ⟨w1, w3, w5, w6⟩ := next_tau _ _ _ _ h.pos hwf hnx
        exact ⟨⟨h.pos, h.len, set_pred _ _ _ _ _ hpc h.wf w1,
          own_local _ _ _ _ _ _ h.own hpc w3,
          pown_local _ _ _ _ _ h.pown hpc w5 w6⟩, hsum⟩

theorem getElem?_concat_some {α : Type} (l : List α) (a b : α) (u : Nat)
    (h : (l ++ [a])[u]? = some b) : l[u]? = some b ∨ b = a := by
  by_cases hu : u < l.length
  · rw [List.getElem?_append_left hu] at h
    exact Or.inl h
  · rw [List.getElem?_append_right (by omega)] at h
    right
    cases hk : u - l.length with
    | zero =>
      rw [hk] at h
      simpa using h.symm
    | succ k =>
      rw [hk] at h
      simp at h

theorem getElem?_concat_of_some {α : Type} (l : List α) (a b : α) (u : Nat)
    (h : l[u]? = some b) : (l ++ [a])[u]? = some b := by
  rw [List.getElem?_append_left (lt_of_getElem? h)]
  exact h

theorem spawn_inv (c : Conc) (pc : WPc) (h : CInv c) (hwf : wellFormed c.ctx.n pc)
    (hno : ∀ i, ¬ holdsElem c.ctx.n pc i) (hnp : ¬ holdsParams pc) : CInv (spawn c pc) := by
  unfold spawn
  split
  · refine ⟨h.pos, h.len, fun t q hq => ?_, fun i t => ?_, fun t => ?_⟩
    · rcases getElem?_concat_some _ _ _ _ hq with h1 | h1
      · exact h.wf t q h1
      · rw [h1]
        exact hwf
    · rw [h.own i t]
      constructor
      · rintro ⟨q, h1, h2⟩
        exact ⟨q, getElem?_concat_of_some _ _ _ _ h1, h2⟩
      · rintro ⟨q, h1, h2⟩
        rcases getElem?_concat_some _ _ _ _ h1 with h3 | h3
        · exact ⟨q, h3, h2⟩
        · rw [h3] at h2
          exact absurd h2 (hno i)
    · rw [h.pown t]
      constructor
      · rintro ⟨q, h1, h2⟩
        exact ⟨q, getElem?_concat_of_some _ _ _ _ h1, h2⟩
      · rintro ⟨q, h1, h2⟩
        rcases getElem?_concat_some _ _ _ _ h1 with h3 | h3
        · exact ⟨q, h3, h2⟩
        · rw [h3] at h2
          exact absurd h2 hnp
  · exact h

theorem cstep_inv (c : Conc) (e : Sched) (h : CInv c) : CInv (cstep c e) := by
  cases e with
  | worker t =>
    simp only [cstep]
    cases he : exec c t with
    | none => exact h
    | some c' => exact (exec_inv c c' t h he).1
  | spawnInversion r1 r2 =>
    exact spawn_inv c _ h (by simp [wellFormed]) (by simp [holdsElem]) (by simp [holdsParams])
  | spawnPrinter =>
    exact spawn_inv c _ h (by simp [wellFormed]) (by simp [holdsElem]) (by simp [holdsParams])
  | setStop =>
    simp only [cstep]
    split
    · exact ⟨h.pos, h.len, h.wf, h.own, h.pown⟩
    · exact h

theorem crun_inv (sched : List Sched) : ∀ c, CInv c → CInv (crun c sched) := by
  induction sched with
  | nil => intro c h; exact h
  | cons e es ih => intro c h; exact ih (cstep c e) (cstep_inv c e h)

theorem initConc_inv (n p : Nat) (arr : List Int) (hn : 0 < n) : CInv (initConc n p arr) := by
  refine ⟨hn, by simp [initConc, initContext], fun t pc h => ?_, fun i t => ?_, fun t => ?_⟩
  · simp [initConc] at h
  · constructor
    · intro h
      simp only [initConc] at h
      by_cases hi : i < n
      · rw [List.getElem?_eq_getElem (by simpa using hi)] at h
        simp at h
      · rw [List.getElem?_eq_none (by simpa using hi)] at h
        exact absurd h (by simp)
    · rintro ⟨pc, h1, _⟩
      simp [initConc] at h1
  · constructor
    · intro h
      exact absurd h (by simp [initConc])
    · rintro ⟨pc, h1, _⟩
      simp [initConc] at h1

/-- A thread that has not returned and cannot act is at a `pthread_mutex_lock`
of a mutex that is owned. -/
theorem exec_blocked (c : Conc) (t : Nat) (pc : WPc) (he : exec c t = none)
    (hpc : c.pcs[t]? = some pc) (hnd : pc ≠ WPc.done) :
    (∃ j pc', next c.ctx.n c.ctx.stop_flag pc = some (Act.acquire j, pc') ∧
      c.mxArray[j]? ≠ some none) ∨
    (∃ pc', next c.ctx.n c.ctx.stop_flag pc = some (Act.acquireParams, pc') ∧
      c.mxParams ≠ none) := by
  unfold exec at he
  cases hnx : next c.ctx.n c.ctx.stop_flag pc with
  | none => exact absurd (next_none _ _ _ hnx) hnd
  | some r =>
    obtain ⟨act, pc'⟩ := r
    simp only [hpc, hnx] at he
    cases act with
    | acquire j =>
      left
      refine ⟨j, pc', rfl, fun hfree => ?_⟩
      simp [hfree] at he
    | acquireParams =>
      right
      refine ⟨pc', rfl, fun hfree => ?_⟩
      simp [hfree] at he
    | unlockElem j => simp at he
    | unlockParams => simp at he
    | decrementUnlock => simp at he
    | swap left right => simp at he
    | say m => simp at he
    | snapshot => simp at he
    | tau => simp at he

theorem holdsParams_next (n : Nat) (stop : Bool) (pc : WPc) (h : holdsParams pc) :
    ∃ act pc', next n stop pc = some (act, pc') ∧
      (act = Act.unlockParams ∨ act = Act.decrementUnlock) := by
  rcases pc with _ | _ | _ | _ | _ | _ | _ | _ | k | _ | k | _ | _ | _ <;>
    simp only [holdsParams] at h
  · simp only [next]
    split_ifs
    · exact ⟨_, _, rfl, Or.inl rfl⟩
    · exact ⟨_, _, rfl, Or.inl rfl⟩
  · exact ⟨_, _, rfl, Or.inr rfl⟩

/-- The owner of `mxParams` can always act. -/
theorem params_owner_runs (c : Conc) (h : CInv c) (u : Nat) (hu : c.mxParams = some u) :
    ∃ c', exec c u = some c' := by
  obtain ⟨q, hq, hhold⟩ := (h.pown u).1 hu
  obtain ⟨act, pc', hnx, hact⟩ := holdsParams_next c.ctx.n c.ctx.stop_flag q hhold
  unfold exec
  simp only [hq, hnx]
  rcases hact with rfl | rfl
  · exact ⟨_, rfl⟩
  · exact ⟨_, rfl⟩

/-- Along a wait the index grows: a thread that owns `i` waits only for a
higher element mutex. -/
theorem waits_increasing (c : Conc) (h : CInv c) (u i j : Nat)
    (hown : c.mxArray[i]? = some (some u)) (hw : waitsFor c u j) : i < j := by
  obtain ⟨q, hq, hhold⟩ := (h.own i u).1 hown
  obtain ⟨q', pc', hq', hnx, _⟩ := hw
  rw [hq] at hq'
  simp only [Option.some.injEq] at hq'
  subst hq'
  exact (next_acquire _ _ _ _ _ (h.wf u q hq) hnx).2.2.2.1 i hhold

/-- If no thread can act, no thread waits for an element mutex. -/
theorem no_waiting (c : Conc) (h : CInv c) (hstuck : ∀ t, exec c t = none) (d : Nat) :
    ∀ t j, waitsFor c t j → c.ctx.n - j ≤ d → False := by
  induction d with
  | zero =>
    intro t j hw hd
    obtain ⟨q, pc', hq, hnx, _⟩ := hw
    have := (next_acquire _ _ _ _ _ (h.wf t q hq) hnx).2.1
    omega
  | succ d ih =>
    intro t j hw hd
    obtain ⟨q, pc', hq, hnx, hbusy⟩ := hw
    have hj : j < c.ctx.n := (next_acquire _ _ _ _ _ (h.wf t q hq) hnx).2.1
    have hjl : j < c.mxArray.length := by rw [h.len]; exact hj
    cases hown : c.mxArray[j]? with
    | none =>
      rw [List.getElem?_eq_none_iff] at hown
      omega
    | some o =>
      cases o with
      | none => exact hbusy hown
      | some u =>
        obtain ⟨qu, hqu, hhold⟩ := (h.own j u).1 hown
        have hnd : qu ≠ WPc.done := by
          intro e
          rw [e] at hhold
          exact hhold
        have hmx : c.mxParams = none := by
          cases hm : c.mxParams with
          | none => rfl
          | some v =>
            obtain ⟨c', hc'⟩ := params_owner_runs c h v hm
            rw [hstuck v] at hc'
            exact absurd hc' (by simp)
        rcases exec_blocked c u qu (hstuck u) hqu hnd with ⟨j', pcu, hnxu, hbusyu⟩ | ⟨_, _, hp⟩
        · have hwu : waitsFor c u j' := ⟨qu, pcu, hqu, hnxu, hbusyu⟩
          have hlt := waits_increasing c h u j j' hown hwu
          exact ih u j' hwu (by omega)
        · exact hp hmx

/-- In no state are all the threads that have not returned waiting. -/
theorem no_deadlock (c : Conc) (h : CInv c) : allDone c ∨ ∃ t c', exec c t = some c' := by
  by_contra hcon
  rw [not_or] at hcon
  obtain ⟨hnd, hne⟩ := hcon
  have hstuck : ∀ t, exec c t = none := by
    intro t
    cases he : exec c t with
    | none => rfl
    | some c' => exact absurd ⟨t, c', he⟩ hne
  have hmx : c.mxParams = none := by
    cases hm : c.mxParams with
    | none => rfl
    | some v =>
      obtain ⟨c', hc'⟩ := params_owner_runs c h v hm
      rw [hstuck v] at hc'
      exact absurd hc' (by simp)
  unfold allDone at hnd
  push_neg at hnd
  obtain ⟨pc, hmem, hpcnd⟩ := hnd
  obtain ⟨t, ht⟩ := List.mem_iff_getElem?.1 hmem
  rcases exec_blocked c t pc (hstuck t) ht hpcnd with ⟨j, pc', hnx, hbusy⟩ | ⟨_, _, hp⟩
  · exact no_waiting c h hstuck (c.ctx.n - j) t j ⟨pc, pc', ht, hnx, hbusy⟩ (le_refl _)
  · exact hp hmx

theorem crun_cons (c : Conc) (e : Sched) (es : List Sched) :
    crun c (e :: es) = crun (cstep c e) es := rfl

/-- From every state the workers can all return. -/
theorem can_finish (k : Nat) : ∀ c, CInv c → stepsLeft c ≤ k → ∃ rest, allDone (crun c rest) := by
  induction k with
  | zero =>
    intro c h hk
    rcases no_deadlock c h with hd | ⟨t, c', he⟩
    · exact ⟨[], hd⟩
    · have := (exec_inv c c' t h he).2
      omega
  | succ k ih =>
    intro c h hk
    rcases no_deadlock c h with hd | ⟨t, c', he⟩
    · exact ⟨[], hd⟩
    · obtain ⟨hinv, hlt⟩ := exec_inv c c' t h he
      obtain ⟨rest, hrest⟩ := ih c' hinv (by omega)
      refine ⟨Sched.worker t :: rest, ?_⟩
      rw [crun_cons]
      simp only [cstep, he, Option.getD_some]
      exact hrest

/-! ## The two views of a worker agree -/

theorem crun_append (c : Conc) (xs ys : List Sched) :
    crun c (xs ++ ys) = crun (crun c xs) ys := by
  simp [crun, List.foldl_append]

theorem soloSchedule_add (a b : Nat) :
    soloSchedule (a + b) = soloSchedule a ++ soloSchedule b := by
  unfold soloSchedule
  exact List.replicate_add a b _

theorem replicate_restore (n l r : Nat) (hlr : l < r) (hr : r < n) :
    ((((List.replicate n (none : Option Nat)).set l (some 0)).set r (some 0)).set r none).set l
      none = List.replicate n none := by
  apply List.ext_getElem?
  intro i
  simp only [List.getElem?_set, List.length_set, List.length_replicate]
  by_cases h1 : l = i
  · subst h1
    simp [show l < n by omega]
  · by_cases h2 : r = i
    · subst h2
      simp [h1, hr]
    · simp [h1, h2]

theorem crun_solo_succ (c c' : Conc) (k : Nat) (h : exec c 0 = some c') :
    crun c (soloSchedule (k + 1)) = crun c' (soloSchedule k) := by
  unfold soloSchedule crun
  rw [List.replicate_succ, List.foldl_cons]
  simp only [cstep, h, Option.getD_some]

theorem crun_solo_zero (c : Conc) : crun c (soloSchedule 0) = c := rfl

/-- One iteration of the loop, taken alone: seven actions. -/
theorem solo_iteration (ctx : SharedContext) (l r : Nat) (out : List Msg)
    (hlr : l < r) (hr : r < ctx.n) (hstop : ctx.stop_flag = false) :
    crun (solo ctx (WPc.invHead l r) out) (soloSchedule 7) =
      solo { ctx with array := swapCells ctx.array l r } (WPc.invHead (l + 1) (r - 1)) out := by
  have hl : l < ctx.n := by omega
  have hne : l ≠ r := by omega
  have e1 : (List.replicate ctx.n (none : Option Nat))[l]? = some none := by
    simp [hl]
  have e2 : ((List.replicate ctx.n (none : Option Nat)).set l (some 0))[r]? = some none := by
    rw [List.getElem?_set_ne hne]
    simp [hr]
  have s1 : exec (solo ctx (WPc.invHead l r) out) 0 =
      some ⟨ctx, List.replicate ctx.n none, some 0, [WPc.invCheck l r], out⟩ := by
    simp [exec, solo, next, hlr]
  have s2 : exec ⟨ctx, List.replicate ctx.n none, some 0, [WPc.invCheck l r], out⟩ 0 =
      some ⟨ctx, List.replicate ctx.n none, none, [WPc.invLockLeft l r], out⟩ := by
    simp [exec, next, hstop]
  have s3 : exec ⟨ctx, List.replicate ctx.n none, none, [WPc.invLockLeft l r], out⟩ 0 =
      some ⟨ctx, (List.replicate ctx.n none).set l (some 0), none,
        [WPc.invLockRight l r], out⟩ := by
    simp only [exec, next, List.getElem?_cons_zero, e1, if_true, List.set_cons_zero]
  have s4 : exec ⟨ctx, (List.replicate ctx.n none).set l (some 0), none,
        [WPc.invLockRight l r], out⟩ 0 =
      some ⟨ctx, ((List.replicate ctx.n none).set l (some 0)).set r (some 0), none,
        [WPc.invSwap l r], out⟩ := by
    simp only [exec, next, List.getElem?_cons_zero, e2, if_true, List.set_cons_zero]
  have s5 : exec ⟨ctx, ((List.replicate ctx.n none).set l (some 0)).set r (some 0), none,
        [WPc.invSwap l r], out⟩ 0 =
      some ⟨{ ctx with array := swapCells ctx.array l r },
        ((List.replicate ctx.n none).set l (some 0)).set r (some 0), none,
        [WPc.invUnlockRight l r], out⟩ := by
    simp [exec, next]
  have s6 : exec ⟨{ ctx with array := swapCells ctx.array l r },
        ((List.replicate ctx.n none).set l (some 0)).set r (some 0), none,
        [WPc.invUnlockRight l r], out⟩ 0 =
      some ⟨{ ctx with array := swapCells ctx.array l r },
        (((List.replicate ctx.n none).set l (some 0)).set r (some 0)).set r none, none,
        [WPc.invUnlockLeft l r], out⟩ := by
    simp [exec, next]
  have s7 : exec ⟨{ ctx with array := swapCells ctx.array l r },
        (((List.replicate ctx.n none).set l (some 0)).set r (some 0)).set r none, none,
        [WPc.invUnlockLeft l r], out⟩ 0 =
      some (solo { ctx with array := swapCells ctx.array l r }
        (WPc.invHead (l + 1) (r - 1)) out) := by
    simp only [exec, next, List.getElem?_cons_zero, List.set_cons_zero, solo,
      replicate_restore ctx.n l r hlr hr]
  rw [crun_solo_succ _ _ _ s1, crun_solo_succ _ _ _ s2, crun_solo_succ _ _ _ s3,
    crun_solo_succ _ _ _ s4, crun_solo_succ _ _ _ s5, crun_solo_succ _ _ _ s6,
    crun_solo_succ _ _ _ s7, crun_solo_zero]

/-- The loop taken alone, with the stop flag not set, computes `inversion_loop`. -/
theorem solo_loop (d : Nat) :
    ∀ (l r : Nat) (ctx : SharedContext) (out : List Msg) (k : Nat),
      r - l ≤ d → r < ctx.n → ctx.stop_flag = false →
      ∃ m, crun (solo ctx (WPc.invHead l r) out) (soloSchedule m) =
        solo { ctx with array := (inversion_loop (fun _ => false) k l r ctx.array).1 }
          WPc.release out := by
  induction d with
  | zero =>
    intro l r ctx out k hd hr hstop
    have hlr : ¬ l < r := by omega
    have s1 : exec (solo ctx (WPc.invHead l r) out) 0 = some (solo ctx WPc.release out) := by
      simp [exec, solo, next, hlr]
    refine ⟨1, ?_⟩
    rw [crun_solo_succ _ _ _ s1, crun_solo_zero, inversion_loop, if_neg hlr]
  | succ d ih =>
    intro l r ctx out k hd hr hstop
    by_cases hlr : l < r
    · obtain ⟨m, hm⟩ := ih (l + 1) (r - 1) { ctx with array := swapCells ctx.array l r } out
        (k + 1) (by omega) (by show r - 1 < ctx.n; omega) hstop
      refine ⟨7 + m, ?_⟩
      rw [soloSchedule_add, crun_append, solo_iteration ctx l r out hlr hr hstop, hm]
      have e : (inversion_loop (fun _ => false) k l r ctx.array).1 =
          (inversion_loop (fun _ => false) (k + 1) (l + 1) (r - 1)
            (swapCells ctx.array l r)).1 := by
        rw [inversion_loop]
        simp [hlr]
      rw [e]
    · have s1 : exec (solo ctx (WPc.invHead l r) out) 0 = some (solo ctx WPc.release out) := by
        simp [exec, solo, next, hlr]
      refine ⟨1, ?_⟩
      rw [crun_solo_succ _ _ _ s1, crun_solo_zero, inversion_loop, if_neg hlr]

/-- The final decrement taken alone: two actions. -/
theorem solo_release (ctx : SharedContext) (out : List Msg) :
    crun (solo ctx WPc.release out) (soloSchedule 2) =
      solo { ctx with active_count := ctx.active_count - 1 } WPc.done out := by
  have s1 : exec (solo ctx WPc.release out) 0 =
      some ⟨ctx, List.replicate ctx.n none, some 0, [WPc.releaseLocked], out⟩ := by
    simp [exec, solo, next]
  have s2 : exec ⟨ctx, List.replicate ctx.n none, some 0, [WPc.releaseLocked], out⟩ 0 =
      some (solo { ctx with active_count := ctx.active_count - 1 } WPc.done out) := by
    simp [exec, solo, next]
  rw [crun_solo_succ _ _ _ s1, crun_solo_succ _ _ _ s2, crun_solo_zero]

/-- A reversal worker that runs alone from its start to its return, the stop
flag not set, leaves the context that `thread_inversion` computes. -/
theorem solo_agrees (ctx : SharedContext) (r1 r2 : Nat) (hn : 0 < ctx.n)
    (hstop : ctx.stop_flag = false) :
    ∃ m out, crun (solo ctx (WPc.invStart r1 r2) []) (soloSchedule m) =
      solo (thread_inversion r1 r2 (fun _ => false) ctx).1 WPc.done out := by
  unfold thread_inversion
  simp only []
  generalize ha : (if r1 % ctx.n > r2 % ctx.n then r2 % ctx.n else r1 % ctx.n) = a
  generalize hb : (if r1 % ctx.n > r2 % ctx.n then r1 % ctx.n else r2 % ctx.n) = b
  have hbn : b < ctx.n := by
    rw [← hb]
    split
    · exact Nat.mod_lt _ hn
    · exact Nat.mod_lt _ hn
  by_cases hab : a = b
  · have s1 : exec (solo ctx (WPc.invStart r1 r2) []) 0 = some (solo ctx WPc.release []) := by
      simp [exec, solo, next, ha, hb, hab]
    refine ⟨1 + 2, [], ?_⟩
    rw [soloSchedule_add, crun_append, crun_solo_succ _ _ _ s1, crun_solo_zero, solo_release,
      if_pos hab]
  · have s1 : exec (solo ctx (WPc.invStart r1 r2) []) 0 =
        some (solo ctx (WPc.invHead a b) [Msg.inverting a b]) := by
      simp [exec, solo, next, ha, hb, hab]
    obtain ⟨m, hm⟩ := solo_loop (b - a) a b ctx [Msg.inverting a b] 0 (le_refl _) hbn hstop
    refine ⟨1 + (m + 2), [Msg.inverting a b], ?_⟩
    rw [soloSchedule_add, crun_append, crun_solo_succ _ _ _ s1, crun_solo_zero,
      soloSchedule_add, crun_append, hm, solo_release, if_neg hab]

theorem lockedUpTo_getElem? (n i j : Nat) :
    (lockedUpTo n i)[j]? = if j < n then some (if j < i then some 0 else none) else none := by
  unfold lockedUpTo
  rw [List.getElem?_map]
  by_cases hj : j < n
  · rw [List.getElem?_range hj, if_pos hj]
    rfl
  · rw [List.getElem?_eq_none (by simpa using hj), if_neg hj]
    rfl

theorem lockedUpTo_zero (n : Nat) : lockedUpTo n 0 = List.replicate n none := by
  apply List.ext_getElem?
  intro j
  rw [lockedUpTo_getElem?]
  by_cases hj : j < n
  · simp [hj]
  · rw [if_neg hj, List.getElem?_eq_none (by simpa using hj)]

theorem lockedUpTo_lock (n i : Nat) (hi : i < n) :
    (lockedUpTo n i).set i (some 0) = lockedUpTo n (i + 1) := by
  apply List.ext_getElem?
  intro j
  rw [List.getElem?_set, lockedUpTo_getElem?, lockedUpTo_getElem?]
  have hlen : (lockedUpTo n i).length = n := by simp [lockedUpTo]
  by_cases hij : i = j
  · subst hij
    simp [hlen, hi]
  · by_cases hj : j < n
    · have : (j < i + 1) ↔ (j < i) := by omega
      simp [hij, hj, this]
    · simp [hij, hj]

theorem lockedUpTo_unlock (n i : Nat) (hi : i < n) :
    (lockedUpTo n (i + 1)).set i none = lockedUpTo n i := by
  apply List.ext_getElem?
  intro j
  rw [List.getElem?_set, lockedUpTo_getElem?, lockedUpTo_getElem?]
  have hlen : (lockedUpTo n (i + 1)).length = n := by simp [lockedUpTo]
  by_cases hij : i = j
  · subst hij
    simp [hlen, hi]
  · by_cases hj : j < n
    · have : (j < i + 1) ↔ (j < i) := by omega
      simp [hij, hj, this]
    · simp [hij, hj]

/-- The loop of `lock_all` taken alone. -/
theorem solo_lock_all (ctx : SharedContext) (out : List Msg) (d : Nat) :
    ∀ i, i + d = ctx.n →
      crun ⟨ctx, lockedUpTo ctx.n i, none, [WPc.prtLock i], out⟩ (soloSchedule d) =
        ⟨ctx, lockedUpTo ctx.n ctx.n, none, [WPc.prtLock ctx.n], out⟩ := by
  induction d with
  | zero =>
    intro i hi
    have : i = ctx.n := by omega
    subst this
    rfl
  | succ d ih =>
    intro i hi
    have hlt : i < ctx.n := by omega
    have hfree : (lockedUpTo ctx.n i)[i]? = some none := by
      rw [lockedUpTo_getElem?]
      simp [hlt]
    have s1 : exec ⟨ctx, lockedUpTo ctx.n i, none, [WPc.prtLock i], out⟩ 0 =
        some ⟨ctx, lockedUpTo ctx.n (i + 1), none, [WPc.prtLock (i + 1)], out⟩ := by
      simp only [exec, next, List.getElem?_cons_zero, hlt, if_true, hfree, List.set_cons_zero,
        lockedUpTo_lock ctx.n i hlt]
    rw [crun_solo_succ _ _ _ s1]
    exact ih (i + 1) (by omega)

/-- The loop of `unlock_all` taken alone. -/
theorem solo_unlock_all (ctx : SharedContext) (out : List Msg) (i : Nat) :
    i ≤ ctx.n →
      crun ⟨ctx, lockedUpTo ctx.n i, none, [WPc.prtUnlock i], out⟩ (soloSchedule i) =
        ⟨ctx, lockedUpTo ctx.n 0, none, [WPc.prtUnlock 0], out⟩ := by
  induction i with
  | zero => intro _; rfl
  | succ i ih =>
    intro hi
    have s1 : exec ⟨ctx, lockedUpTo ctx.n (i + 1), none, [WPc.prtUnlock (i + 1)], out⟩ 0 =
        some ⟨ctx, lockedUpTo ctx.n i, none, [WPc.prtUnlock i], out⟩ := by
      simp only [exec, next, List.getElem?_cons_zero, List.set_cons_zero,
        lockedUpTo_unlock ctx.n i (by omega)]
    rw [crun_solo_succ _ _ _ s1]
    exact ih (by omega)

/-- A snapshot worker that runs alone from its start to its return prints the
array and leaves the context that `thread_printer` computes. -/
theorem solo_printer_agrees (ctx : SharedContext) :
    ∃ m, crun (solo ctx (WPc.prtLock 0) []) (soloSchedule m) =
      solo (thread_printer ctx).1 WPc.done [Msg.printerArray ctx.array] := by
  have h0 : solo ctx (WPc.prtLock 0) [] =
      ⟨ctx, lockedUpTo ctx.n 0, none, [WPc.prtLock 0], []⟩ := by
    simp [solo, lockedUpTo_zero]
  have s1 : exec ⟨ctx, lockedUpTo ctx.n ctx.n, none, [WPc.prtLock ctx.n], []⟩ 0 =
      some ⟨ctx, lockedUpTo ctx.n ctx.n, none, [WPc.prtPrint], []⟩ := by
    simp [exec, next]
  have s2 : exec ⟨ctx, lockedUpTo ctx.n ctx.n, none, [WPc.prtPrint], []⟩ 0 =
      some ⟨ctx, lockedUpTo ctx.n ctx.n, none, [WPc.prtUnlock ctx.n],
        [Msg.printerArray ctx.array]⟩ := by
    simp [exec, next]
  have s3 : exec ⟨ctx, lockedUpTo ctx.n 0, none, [WPc.prtUnlock 0],
        [Msg.printerArray ctx.array]⟩ 0 =
      some (solo ctx WPc.release [Msg.printerArray ctx.array]) := by
    simp [exec, next, solo, lockedUpTo_zero]
  refine ⟨ctx.n + (1 + (1 + (ctx.n + (1 + 2)))), ?_⟩
  rw [soloSchedule_add, crun_append, h0, solo_lock_all ctx [] ctx.n 0 (by omega),
    soloSchedule_add, crun_append, crun_solo_succ _ _ _ s1, crun_solo_zero,
    soloSchedule_add, crun_append, crun_solo_succ _ _ _ s2, crun_solo_zero,
    soloSchedule_add, crun_append, solo_unlock_all ctx _ ctx.n (le_refl _),
    soloSchedule_add, crun_append, crun_solo_succ _ _ _ s3, crun_solo_zero, solo_release]
  rfl

/-! ## Deliveries and the tests of the request flags -/

/-- C2: in every state reachable from a startup with `1 ≤ p ≤ 16` by any
sequence of signals, main-thread segments (admission attempts for reversal and
print requests) and worker completions, `0 ≤ active_count ≤ p`; an event
increments `active_count` only when it was below `p`, and decrements it only as
the completion of a live (admitted) worker, which is then no longer live. -/
theorem C2_active_count_bounded (n p : Int) (s0 : Sys) (h0 : startup n p = some s0)
    (evs : List Event) :
    (1 ≤ p ∧ p ≤ 16) ∧
    (0 ≤ (run s0 evs).ctx.active_count ∧ (run s0 evs).ctx.active_count ≤ p) ∧
    ∀ e : Event,
      (step (run s0 evs) e).ctx.active_count = (run s0 evs).ctx.active_count ∨
      ((step (run s0 evs) e).ctx.active_count = (run s0 evs).ctx.active_count + 1 ∧
        (run s0 evs).ctx.active_count < p ∧ ∃ created, e = Event.main created) ∨
      ((step (run s0 evs) e).ctx.active_count = (run s0 evs).ctx.active_count - 1 ∧
        ∃ w ∈ (run s0 evs).live, (∃ r1 r2 flagAt, e = Event.workerExit w.1 r1 r2 flagAt) ∧
          (step (run s0 evs) e).live = (run s0 evs).live.erase w ∧
          w ∉ (step (run s0 evs) e).live) := by
  have hinv : Inv (run s0 evs) := inv_run evs s0 (inv_startup n p s0 h0)
  obtain ⟨_, _, hp1, hp2, hs0⟩ := startup_some n p s0 h0
  have hp : ((run s0 evs).ctx.p : Int) = p := by
    rw [(run_static evs s0).1, hs0]
    simp only [bootSys, initContext]
    omega
  refine ⟨⟨hp1, hp2⟩, ⟨?_, ?_⟩, fun e => ?_⟩
  · have := hinv.count
    omega
  · have := hinv.bound
    omega
  · have := step_count (run s0 evs) hinv e
    rw [hp] at this
    exact this

theorem C2_active_count_bounded_witness :
    startup 8 2 = some (bootSys 8 2) ∧
    (0 ≤ (run (bootSys 8 2)
        [Event.signal Signal.SIGUSR1, Event.main true, Event.main true, Event.main true,
         Event.workerExit 0 3 3 (fun _ => false)]).ctx.active_count ∧
      (run (bootSys 8 2)
        [Event.signal Signal.SIGUSR1, Event.main true, Event.main true, Event.main true,
         Event.workerExit 0 3 3 (fun _ => false)]).ctx.active_count ≤ 2) :=
  ⟨by decide,
    (C2_active_count_bounded 8 2 (bootSys 8 2) (by decide)
      [Event.signal Signal.SIGUSR1, Event.main true, Event.main true, Event.main true,
       Event.workerExit 0 3 3 (fun _ => false)]).2.1⟩

/-- C3 (the code departs from the claim): with `n = 8`, `p = 1`, one reversal
request whose `pthread_create` fails leaves `active_count = 1` although no
worker is live and the registry is empty; nothing ever decrements it, so the
next reversal request, whose `pthread_create` would succeed, is rejected as
busy and still no worker exists. -/
theorem C3_failed_create_keeps_slot :
    startup 8 1 = some (bootSys 8 1) ∧
    (run (bootSys 8 1)
      [Event.signal Signal.SIGUSR1, Event.main true, Event.main false,
       Event.main true]).ctx.active_count = 1 ∧
    (run (bootSys 8 1)
      [Event.signal Signal.SIGUSR1, Event.main true, Event.main false,
       Event.main true]).live = [] ∧
    (run (bootSys 8 1)
      [Event.signal Signal.SIGUSR1, Event.main true, Event.main false,
       Event.main true]).ctx.threads = [] ∧
    (run (bootSys 8 1)
      [Event.signal Signal.SIGUSR1, Event.main true, Event.main false, Event.main true,
       Event.signal Signal.SIGUSR1, Event.main true, Event.main true,
       Event.main true]).ctx.active_count = 1 ∧
    (run (bootSys 8 1)
      [Event.signal Signal.SIGUSR1, Event.main true, Event.main false, Event.main true,
       Event.signal Signal.SIGUSR1, Event.main true, Event.main true,
       Event.main true]).live = [] ∧
    (run (bootSys 8 1)
      [Event.signal Signal.SIGUSR1, Event.main true, Event.main false, Event.main true,
       Event.signal Signal.SIGUSR1, Event.main true, Event.main true,
       Event.main true]).log =
      [Ev.say Msg.ready, Ev.lockParams, Ev.unlockParams,
       Ev.lockParams, Ev.say Msg.busy, Ev.unlockParams] := by
  decide

/-- C5 (as stated it fails): with `active_count = 0 < p = 1` and a reversal
request pending, the admission step whose `pthread_create` fails increments
`active_count` and prints no busy notice, yet no worker is spawned and nothing
is recorded in the registry. -/
theorem C5_admitted_without_worker :
    (run (bootSys 8 1) [Event.signal Signal.SIGUSR1, Event.main true]).ctx.req_inversion = 1 ∧
    (run (bootSys 8 1) [Event.signal Signal.SIGUSR1, Event.main true]).ctx.active_count = 0 ∧
    (run (bootSys 8 1) [Event.signal Signal.SIGUSR1, Event.main true]).ctx.p = 1 ∧
    (handle_request Kind.inversion false
      (run (bootSys 8 1) [Event.signal Signal.SIGUSR1, Event.main true])).ctx.active_count = 1 ∧
    (handle_request Kind.inversion false
      (run (bootSys 8 1) [Event.signal Signal.SIGUSR1, Event.main true])).live = [] ∧
    (handle_request Kind.inversion false
      (run (bootSys 8 1) [Event.signal Signal.SIGUSR1, Event.main true])).spawned = [] ∧
    (handle_request Kind.inversion false
      (run (bootSys 8 1) [Event.signal Signal.SIGUSR1, Event.main true])).ctx.threads = [] ∧
    (handle_request Kind.inversion false
      (run (bootSys 8 1) [Event.signal Signal.SIGUSR1, Event.main true])).log.count
        (Ev.say Msg.busy) = 0 := by
  decide

/-- C5 (amended): the admission step of the control loop, for a pending
reversal or print request, clears the request flag in every case and admits
exactly when `active_count < p` (no busy notice is printed); when
`active_count < p` and `pthread_create` succeeds, `active_count` grows by
exactly 1 and the worker is spawned and recorded at the head of the registry;
when `active_count ≥ p` the busy notice is printed and `active_count`, the stop
flag, the array, the registry and the set of workers are unchanged. -/
theorem C5_admission_step (kind : Kind) (created : Bool) (s : Sys)
    (hreq : requestFlag kind s.ctx ≠ 0) :
    requestFlag kind (handle_request kind created s).ctx = 0 ∧
    (s.ctx.active_count < (s.ctx.p : Int) →
      (handle_request kind created s).log = s.log ++ [Ev.lockParams, Ev.unlockParams]) ∧
    (s.ctx.active_count < (s.ctx.p : Int) → created = true →
      (handle_request kind created s).ctx.active_count = s.ctx.active_count + 1 ∧
      (handle_request kind created s).live = s.live ++ [(s.nextTid, kind)] ∧
      (handle_request kind created s).spawned = s.spawned ++ [s.nextTid] ∧
      (handle_request kind created s).ctx.threads = s.nextTid :: s.ctx.threads) ∧
    (¬ s.ctx.active_count < (s.ctx.p : Int) →
      (handle_request kind created s).log =
        s.log ++ [Ev.lockParams, Ev.say Msg.busy, Ev.unlockParams] ∧
      (handle_request kind created s).ctx.active_count = s.ctx.active_count ∧
      (handle_request kind created s).ctx.stop_flag = s.ctx.stop_flag ∧
      (handle_request kind created s).ctx.array = s.ctx.array ∧
      (handle_request kind created s).ctx.threads = s.ctx.threads ∧
      (handle_request kind created s).live = s.live ∧
      (handle_request kind created s).spawned = s.spawned) := by
  cases kind with
  | inversion =>
    have hq : s.ctx.req_inversion ≠ 0 := hreq
    simp only [handle_request, handle_inversion, if_pos hq, requestFlag]
    unfold admission
    by_cases hge : s.ctx.active_count ≥ (s.ctx.p : Int)
    · have hlt : ¬ s.ctx.active_count < (s.ctx.p : Int) := by omega
      simp [hge, hlt]
    · have hlt : s.ctx.active_count < (s.ctx.p : Int) := by omega
      cases created <;> simp [hge, hlt, add_thread]
  | printer =>
    have hq : s.ctx.req_print ≠ 0 := hreq
    simp only [handle_request, handle_print, if_pos hq, requestFlag]
    unfold admission
    by_cases hge : s.ctx.active_count ≥ (s.ctx.p : Int)
    · have hlt : ¬ s.ctx.active_count < (s.ctx.p : Int) := by omega
      simp [hge, hlt]
    · have hlt : s.ctx.active_count < (s.ctx.p : Int) := by omega
      cases created <;> simp [hge, hlt, add_thread]

theorem C5_admission_step_witness :
    requestFlag Kind.printer
      (run (bootSys 8 1) [Event.signal Signal.SIGUSR2, Event.main true, Event.main true]).ctx ≠ 0 ∧
    requestFlag Kind.printer (handle_request Kind.printer true
      (run (bootSys 8 1)
        [Event.signal Signal.SIGUSR2, Event.main true, Event.main true])).ctx = 0 :=
  ⟨by decide, (C5_admission_step Kind.printer true
    (run (bootSys 8 1) [Event.signal Signal.SIGUSR2, Event.main true, Event.main true])
    (by decide)).1⟩

/-- C6: for every array of length `n` and `0 ≤ a ≤ b < n`, running the reversal
worker on `[a,b]` twice in sequence, each run to completion with the stop flag
not set, restores the original array. -/
theorem C6_reversal_involution (ctx : SharedContext) (a b : Nat)
    (hn : ctx.array.length = ctx.n) (hab : a ≤ b) (hb : b < ctx.n) :
    (thread_inversion a b (fun _ => false)
      (thread_inversion a b (fun _ => false) ctx).1).1.array = ctx.array := by
  rcases Nat.eq_or_lt_of_le hab with heq | hlt
  · subst heq
    rw [thread_inversion_same, thread_inversion_same]
  · have hn1 : (thread_inversion a b (fun _ => false) ctx).1.n = ctx.n :=
      thread_inversion_static a b _ ctx
    have h1 := inversion_loop_full a b ctx.array hlt (by omega)
    rw [thread_inversion_array a b _ _ hlt (by rw [hn1]; exact hb),
      thread_inversion_array a b _ ctx hlt hb]
    have h2 := inversion_loop_full a b (inversion_loop (fun _ => false) 0 a b ctx.array).1 hlt
      (by rw [h1.1]; omega)
    apply List.ext_getElem?
    intro i
    rw [h2.2 i]
    by_cases c : a ≤ i ∧ i ≤ b
    · rw [if_pos c, h1.2, if_pos (by omega)]
      congr 1
      omega
    · rw [if_neg c, h1.2, if_neg c]

theorem C6_reversal_involution_witness :
    (initContext 8 2).array.length = (initContext 8 2).n ∧
    (thread_inversion 2 5 (fun _ => false)
      (thread_inversion 2 5 (fun _ => false) (initContext 8 2)).1).1.array
      = (initContext 8 2).array :=
  ⟨by decide, C6_reversal_involution (initContext 8 2) 2 5 (by decide) (by decide) (by decide)⟩

/-- C8: along the events of each worker, an element lock is acquired only when
its index is strictly above every element lock already held, only held locks
are released, no element lock is held at the end, and every lock is acquired
as often as it is released.  The reversal worker's events are `m` swap steps,
each acquiring `left` then `right` with `left < right` and releasing `right`
then `left`, with no element lock held after any step; `lock_all` acquires
`0, 1, ..., n-1` in that order and `unlock_all` releases `n-1, ..., 0`. -/
theorem C8_lock_ordering (r1 r2 : Nat) (flagAt : Nat → Bool) (ctx : SharedContext) :
    (lockOrdered [] (thread_inversion r1 r2 flagAt ctx).2 ∧
      heldAfter [] (thread_inversion r1 r2 flagAt ctx).2 = [] ∧
      (∀ i, (thread_inversion r1 r2 flagAt ctx).2.count (Ev.lock i) =
        (thread_inversion r1 r2 flagAt ctx).2.count (Ev.unlock i)) ∧
      ∃ a b m,
        ((thread_inversion r1 r2 flagAt ctx).2 = [Ev.lockParams, Ev.unlockParams] ∨
         (thread_inversion r1 r2 flagAt ctx).2 =
           [Ev.say (Msg.inverting a b)] ++ (stepsTrace a b m ++ loopExit a b m)
             ++ [Ev.lockParams, Ev.unlockParams]) ∧
        (∀ j, j < m → a + j < b - j) ∧
        (∀ j, j ≤ m → heldAfter [] ([Ev.say (Msg.inverting a b)] ++ stepsTrace a b j) = [])) ∧
    (lock_all ctx = (List.range ctx.n).map Ev.lock ∧
      unlock_all ctx = (List.range ctx.n).reverse.map Ev.unlock ∧
      (thread_printer ctx).2 =
        lock_all ctx ++ [Ev.say (Msg.printerArray ctx.array)] ++ unlock_all ctx
          ++ [Ev.lockParams, Ev.unlockParams] ∧
      heldAfter [] (lock_all ctx) = (List.range ctx.n).reverse ∧
      lockOrdered [] (thread_printer ctx).2 ∧
      heldAfter [] (thread_printer ctx).2 = [] ∧
      (∀ i, (thread_printer ctx).2.count (Ev.lock i) =
        (thread_printer ctx).2.count (Ev.unlock i))) := by
  have hinv : lockOrdered [] (thread_inversion r1 r2 flagAt ctx).2 ∧
      heldAfter [] (thread_inversion r1 r2 flagAt ctx).2 = [] := by
    obtain ⟨a, b, m, hm, h | h⟩ := thread_inversion_shape r1 r2 flagAt ctx
    · rw [h]
      simp [lockOrdered, heldAfter]
    · rw [h]
      have h1 := stepsTrace_ordered m a b hm
      have h2 := loopExit_ordered a b m
      simp only [lockOrdered_append, heldAfter_append, h1.1, h1.2, h2.1, h2.2]
      simp [lockOrdered, heldAfter, h1.1, h1.2, h2.1, h2.2]
  have hla := lock_all_from_ordered ctx.n 0
  have hua := unlock_all_from_ordered ctx.n
  simp only [List.range_zero, List.reverse_nil, Nat.zero_add] at hla
  have hprt : lockOrdered [] (thread_printer ctx).2 ∧
      heldAfter [] (thread_printer ctx).2 = [] := by
    simp only [thread_printer, lock_all, unlock_all, lockOrdered_append, heldAfter_append,
      hla.1, hla.2]
    simp [lockOrdered, heldAfter, hua.1, hua.2]
  refine ⟨⟨hinv.1, hinv.2, fun i => ?_, ?_⟩,
    ⟨?_, unlock_all_from_eq ctx.n, rfl, hla.2, hprt.1, hprt.2, fun i => ?_⟩⟩
  · have := lock_balance _ i [] hinv.1
    rw [hinv.2] at this
    simpa using this
  · obtain ⟨a, b, m, hm, h⟩ := thread_inversion_shape r1 r2 flagAt ctx
    refine ⟨a, b, m, h, fun j hj => by omega, fun j hj => ?_⟩
    rw [heldAfter_append]
    exact stepsTrace_held m a b hm j hj
  · rw [lock_all, lock_all_from_eq, List.range_eq_range']
  · have := lock_balance _ i [] hprt.1
    rw [hprt.2] at this
    simpa using this

/-- C10: for any number of reversal and snapshot workers that `main` starts at
any time, with any `rand()` results (so any overlap of ranges), and under every
interleaving of their atomic actions and of `main` setting the stop flag: in the
state reached either every worker has returned or some worker can act (no
deadlock); a worker that owns element mutex `i` and waits for element mutex `j`
has `i < j`, so no cycle of waiting exists; every action of a worker lowers a
bound on the actions still to come, so no worker runs forever; and the workers
can all return from that state. -/
theorem C10_deadlock_freedom (n p : Nat) (arr : List Int) (sched : List Sched) (hn : 0 < n) :
    (allDone (crun (initConc n p arr) sched) ∨
      ∃ t c', exec (crun (initConc n p arr) sched) t = some c') ∧
    (∀ u i j, (crun (initConc n p arr) sched).mxArray[i]? = some (some u) →
      waitsFor (crun (initConc n p arr) sched) u j → i < j) ∧
    (∀ t c', exec (crun (initConc n p arr) sched) t = some c' →
      stepsLeft c' < stepsLeft (crun (initConc n p arr) sched)) ∧
    (∃ rest, allDone (crun (crun (initConc n p arr) sched) rest)) := by
  have hinv : CInv (crun (initConc n p arr) sched) :=
    crun_inv sched _ (initConc_inv n p arr hn)
  exact ⟨no_deadlock _ hinv, fun u i j => waits_increasing _ hinv u i j,
    fun t c' he => (exec_inv _ c' t hinv he).2, can_finish _ _ hinv (le_refl _)⟩

set_option maxRecDepth 100000

theorem C10_deadlock_freedom_witness :
    0 < 8 ∧
    (crun (initConc 8 3 (initContext 8 3).array) contestedSchedule).pcs
      = [WPc.invSwap 2 5, WPc.invLockRight 4 5, WPc.prtLock 2] ∧
    waitsFor (crun (initConc 8 3 (initContext 8 3).array) contestedSchedule) 1 5 ∧
    waitsFor (crun (initConc 8 3 (initContext 8 3).array) contestedSchedule) 2 2 ∧
    (allDone (crun (initConc 8 3 (initContext 8 3).array) contestedSchedule) ∨
      ∃ t c', exec (crun (initConc 8 3 (initContext 8 3).array) contestedSchedule) t
        = some c') :=
  ⟨by decide, by decide,
    ⟨WPc.invLockRight 4 5, WPc.invSwap 4 5, by decide, by decide, by decide⟩,
    ⟨WPc.prtLock 2, WPc.prtLock 3, by decide, by decide, by decide⟩,
    (C10_deadlock_freedom 8 3 (initContext 8 3).array contestedSchedule (by decide)).1⟩

end ThreadsMutex
